import Mathlib

/-!
# Verification of the Steeplechase log parser

A shallow embedding of `src/steepleparse.py`, a streaming parser that turns a
two-client test-harness log into a structured results record, together with
proofs about the claims of its specification.

Modelling conventions:
* A log line is represented by the `Line` inductive: one constructor per named
  pattern of the `REGEXPS` table, plus `other` for lines matching none of them.
  `testResult a` stands for a line containing a JSON fragment with action `a`
  (the regex captures an action of word characters starting with `test`).
* Timestamps of stats-block headers are carried as integer seconds: the Python
  code parses the timestamp string with `dateutil` and only ever takes integer
  `total_seconds()` of differences, so `Int` arithmetic models it exactly.
* The `line_reader` generator together with `requeue_line` is modelled by the
  `Cursor` state machine; the module-level `_anomalies` accumulator is threaded
  explicitly through every function, and over-all outcomes (`StopIteration`
  with and without an argument, uncaught `AttributeError`) are modelled by the
  `Exc` type.  Each Python loop becomes one recursive Lean function returning
  `(outcome, cursor, state..)`, so state survives an in-flight exception just
  as Python's mutable state does.
-/

namespace Steeple

/-- A log line, classified by the `REGEXPS` pattern it matches (`other` for
lines matching none of the patterns used by the parser). -/
inductive Line where
  | blank
  | clientStart (name : String)
  | clientEnd
  | scError
  | sessionStart
  | statsHeader (ts : Int)
  | testResult (action : String)
  | testFinished
  | totalPassed (n : Nat)
  | totalFailed (n : Nat)
  | other
deriving DecidableEq

/-- Does the line match `REGEXPS['client start']`? -/
def isClientStart : Line → Bool
  | .clientStart _ => true
  | _ => false

/-- The captured client name of a `client start` line. -/
def clientStartName : Line → Option String
  | .clientStart n => some n
  | _ => none

/-- Does the line match `REGEXPS['client end']`? -/
def isClientEnd : Line → Bool
  | .clientEnd => true
  | _ => false

/-- Does the line match `REGEXPS['sc error']`? -/
def isScError : Line → Bool
  | .scError => true
  | _ => false

/-- Does the line match `REGEXPS['session start']`? -/
def isSessionStart : Line → Bool
  | .sessionStart => true
  | _ => false

/-- Does the line match `REGEXPS['stats block']`?  Returns the captured
timestamp. -/
def statsTs : Line → Option Int
  | .statsHeader ts => some ts
  | _ => none

/-- Does the line match `REGEXPS['stats block']`? -/
def isStatsHeader : Line → Bool
  | .statsHeader _ => true
  | _ => false

/-- Does the line match `REGEXPS['test result']`?  Returns the captured
action. -/
def resultAction : Line → Option String
  | .testResult a => some a
  | _ => none

/-- Does the line match `REGEXPS['test result']`? -/
def isTestResult : Line → Bool
  | .testResult _ => true
  | _ => false

/-- Does the line match `REGEXPS['test failure']`?  The pattern
`.*{"action":"test_unexpected_fail"` ends in a literal closing quote, and a
test-result line's captured action consists of word characters only
(`test\w*`), so the character following the action in the line text is that
quote: the pattern matches exactly the lines whose action is the exact string
`test_unexpected_fail`.  An extension such as `test_unexpected_failure` does
not match, because the character after `fail` in its line text is `u`, not
the required quote. -/
def isTestFailure : Line → Bool
  | .testResult a => a == "test_unexpected_fail"
  | _ => false

/-- Does the line match `REGEXPS['test finished']`? -/
def isTestFinished : Line → Bool
  | .testFinished => true
  | _ => false

/-- Does the line match `REGEXPS['blank']`? -/
def isBlank : Line → Bool
  | .blank => true
  | _ => false

/-- Captured integer of a `total passed` line. -/
def totalPassedVal : Line → Option Nat
  | .totalPassed n => some n
  | _ => none

/-- Captured integer of a `total failed` line. -/
def totalFailedVal : Line → Option Nat
  | .totalFailed n => some n
  | _ => none

/-- The messages that can be appended to the anomaly log.  `rawLine` models
`log_anomaly(number, line)` for a harness-error line logged verbatim by
`check_for_anomalies`; the other constructors model the formatted strings
`"<name> exited early"`, `"<name> got stats after test finished"` and
`"Reached unexpected EOF"`. -/
inductive Msg where
  | rawLine (l : Line)
  | exitedEarly (name : String)
  | statsAfterFinished (name : Option String)
  | unexpectedEOF
deriving DecidableEq

/-- The module-level `_anomalies` list: ordered (line number, message) pairs. -/
abbrev Anoms := List (Nat × Msg)

/-- `log_anomaly`. -/
def logAnomaly (n : Nat) (msg : Msg) (a : Anoms) : Anoms := a ++ [(n, msg)]

/-- `check_for_anomalies`: run on every freshly produced line. -/
def checkForAnomalies (n : Nat) (l : Line) (a : Anoms) : Anoms :=
  if isScError l then logAnomaly n (.rawLine l) a else a

/-- The state of the `line_reader` generator: lines not yet produced, the
1-based number of the last produced line (`0` initially), the most recently
produced (number, line) pair, whether that pair is pending re-delivery after a
`requeue_line`, and whether the generator has already raised its final
`StopIteration` (after which every interaction raises a bare
`StopIteration`). -/
structure Cursor where
  rest : List Line
  number : Nat
  last? : Option (Nat × Line)
  pend : Bool
  closed : Bool
deriving DecidableEq

/-- A fresh reader over the given log. -/
def initCursor (log : List Line) : Cursor := ⟨log, 0, none, false, false⟩

/-- Exceptional outcomes: `Client_Early_Exit_Error(n)`, `StopIteration(n)`
raised by the exhausted generator, a bare `StopIteration` from interacting
with a closed generator, and an uncaught Python error (`AttributeError` from
`m.group` on a failed match, or `IndexError`). -/
inductive Exc where
  | earlyExit (n : Nat)
  | eofNum (n : Nat)
  | eofBare
  | crash
deriving DecidableEq

/-- `reader.next()`: re-deliver the pending line after a requeue, else produce
the next fresh line (scanning it for harness-error anomalies), else raise
`StopIteration(number)`. -/
def rnext (c : Cursor) (a : Anoms) : Except Exc (Nat × Line) × Cursor × Anoms :=
  if c.closed then (.error .eofBare, c, a)
  else
    match c.pend, c.last? with
    | true, some (n, l) => (.ok (n, l), { c with pend := false }, a)
    | _, _ =>
      match c.rest with
      | [] => (.error (.eofNum c.number), { c with pend := false, closed := true }, a)
      | l :: ls =>
        let n := c.number + 1
        (.ok (n, l),
         { c with rest := ls, number := n, last? := some (n, l), pend := false },
         checkForAnomalies n l a)

/-- `requeue_line(reader)`: mark the most recently produced line as pending
re-delivery. -/
def requeue (c : Cursor) : Cursor := { c with pend := true }

/-- Termination measure for the parsing loops: every successful `rnext`
strictly decreases it, and a `requeue` increases it by at most one. -/
def meas (c : Cursor) : Nat := 2 * c.rest.length + (if c.pend then 1 else 0)

theorem rnext_meas_lt {c : Cursor} {a : Anoms} {n : Nat} {l : Line} {c' : Cursor}
    {a' : Anoms} (h : rnext c a = (.ok (n, l), c', a')) : meas c' < meas c := by
  rcases hp : c.pend with _ | _ <;>
    (unfold rnext at h
     repeat' split at h
     all_goals
       (simp only [Prod.mk.injEq] at h
        obtain ⟨h1, hc, h3⟩ := h
        subst hc
        simp_all [meas] <;> omega))

theorem requeue_meas (c : Cursor) : meas (requeue c) ≤ meas c + 1 := by
  simp only [meas, requeue]
  split <;> omega

/-- `create_client_results()`; `blocks` is `None` until the session phase
initializes it. -/
structure Block where
  timestamp : Int
  failedTests : List (Nat × Line)
deriving DecidableEq

structure CR where
  name : Option String
  blocks : Option Nat
  sessionRuntime : Option Int
  longestPass : Option Int
  setupFailures : List (Nat × Line)
  cleanupFailures : List (Nat × Line)
  sessionFailures : List (Nat × Line)
  failedBlocks : List Block
deriving DecidableEq

def createClientResults : CR := ⟨none, none, none, none, [], [], [], []⟩

/-- `create_results()`. -/
structure Results where
  clients : List CR
  sessionRuntime : Option Int
  totalPassed : Option Nat
  totalFailed : Option Nat
  anomalies : Anoms
deriving DecidableEq

def createResults : Results := ⟨[], none, none, none, []⟩

/-- Python 2 `min` on two values that are `None` or ints: `None` compares
below every int, so the minimum is `None` as soon as either side is. -/
def pyMin : Option Int → Option Int → Option Int
  | none, _ => none
  | some _, none => none
  | some x, some y => some (min x y)

/-- The divider-skipping loop of `process_stats_block`: consume lines,
remembering whether a blank-marker line has been seen (`inBlank`); the first
non-blank line after a blank is requeued and the loop ends. -/
def statsDividerLoop (c : Cursor) (a : Anoms) (inBlank : Bool) :
    Except Exc Unit × Cursor × Anoms :=
  match h : rnext c a with
  | (.error e, c', a') => (.error e, c', a')
  | (.ok (_, l), c', a') =>
    if isBlank l then statsDividerLoop c' a' true
    else if inBlank then (.ok (), requeue c', a')
    else statsDividerLoop c' a' false
termination_by meas c
decreasing_by
  all_goals exact rnext_meas_lt h

/-- The test-result loop of `process_stats_block`: consume lines while they
match the `test result` pattern, recording those whose action is not exactly
`test_pass`; the first non-matching line is requeued. -/
def statsTestLoop (c : Cursor) (a : Anoms) (fails : List (Nat × Line)) :
    Except Exc (List (Nat × Line)) × Cursor × Anoms :=
  match h : rnext c a with
  | (.error e, c', a') => (.error e, c', a')
  | (.ok (n, l), c', a') =>
    match resultAction l with
    | some act =>
      statsTestLoop c' a' (if act = "test_pass" then fails else fails ++ [(n, l)])
    | none => (.ok fails, requeue c', a')
termination_by meas c
decreasing_by
  all_goals exact rnext_meas_lt h

theorem statsDividerLoop_meas_le {c : Cursor} {a : Anoms} {b : Bool} {c' : Cursor}
    {a' : Anoms} (h : statsDividerLoop c a b = (.ok (), c', a')) : meas c' ≤ meas c := by
  induction c, a, b using statsDividerLoop.induct with
  | case1 c a b e c₁ a₁ hr =>
      rw [statsDividerLoop, hr] at h
      simp at h
  | case2 c a b n l c₁ a₁ hr hbl ih =>
      rw [statsDividerLoop, hr] at h
      simp only [hbl, if_true] at h
      exact le_of_lt (lt_of_le_of_lt (ih h) (rnext_meas_lt hr))
  | case3 c a n l c₁ a₁ hr hbl =>
      rw [statsDividerLoop, hr] at h
      simp [hbl] at h
      obtain ⟨hc, -⟩ := h
      rw [← hc]
      exact le_trans (requeue_meas c₁) (rnext_meas_lt hr)
  | case4 c a b n l c₁ a₁ hr hbl hib ih =>
      rw [statsDividerLoop, hr] at h
      simp only [hbl, hib, if_false, Bool.false_eq_true, reduceIte] at h
      exact le_of_lt (lt_of_le_of_lt (ih h) (rnext_meas_lt hr))

theorem statsTestLoop_meas_le {c : Cursor} {a : Anoms} {fs : List (Nat × Line)}
    {r : List (Nat × Line)} {c' : Cursor} {a' : Anoms}
    (h : statsTestLoop c a fs = (.ok r, c', a')) : meas c' ≤ meas c := by
  induction c, a, fs using statsTestLoop.induct with
  | case1 c a fs e c₁ a₁ hr =>
      rw [statsTestLoop, hr] at h
      simp at h
  | case2 c a fs n l c₁ a₁ hr act hact ih =>
      rw [statsTestLoop, hr] at h
      simp only [hact] at h
      exact le_of_lt (lt_of_le_of_lt (ih h) (rnext_meas_lt hr))
  | case3 c a fs n l c₁ a₁ hr hact =>
      rw [statsTestLoop, hr] at h
      simp [hact] at h
      obtain ⟨-, hc, -⟩ := h
      rw [← hc]
      exact le_trans (requeue_meas c₁) (rnext_meas_lt hr)

/-- `process_stats_block`: read the header line (an `AttributeError` crash if
it does not match the stats-block pattern), skip the divider region, collect
failing test-result lines, and append the block to the client's failed-blocks
list when it has failures and `just_scan` is off.  Returns the block timestamp
and whether the block passed. -/
def processStatsBlock (c : Cursor) (cr : CR) (a : Anoms) (justScan : Bool) :
    Except Exc (Int × Bool) × Cursor × CR × Anoms :=
  match rnext c a with
  | (.error e, c', a') => (.error e, c', cr, a')
  | (.ok (_, l), c', a') =>
    match statsTs l with
    | none => (.error .crash, c', cr, a')
    | some ts =>
      match statsDividerLoop c' a' false with
      | (.error e, c₂, a₂) => (.error e, c₂, cr, a₂)
      | (.ok _, c₂, a₂) =>
        match statsTestLoop c₂ a₂ [] with
        | (.error e, c₃, a₃) => (.error e, c₃, cr, a₃)
        | (.ok fails, c₃, a₃) =>
          let cr' := if fails.isEmpty || justScan then cr
            else { cr with failedBlocks := cr.failedBlocks ++ [⟨ts, fails⟩] }
          (.ok (ts, fails.isEmpty), c₃, cr', a₃)

theorem processStatsBlock_meas_lt {c : Cursor} {cr : CR} {a : Anoms} {js : Bool}
    {v : Int × Bool} {c' : Cursor} {cr' : CR} {a' : Anoms}
    (h : processStatsBlock c cr a js = (.ok v, c', cr', a')) : meas c' < meas c := by
  unfold processStatsBlock at h
  rcases hr : rnext c a with ⟨out, c₁, a₁⟩
  rcases out with e | ⟨n, l⟩ <;> simp only [hr] at h
  · simp at h
  · rcases hts : statsTs l with _ | ts <;> simp only [hts] at h
    · simp at h
    · rcases hd : statsDividerLoop c₁ a₁ false with ⟨dout, c₂, a₂⟩
      rcases dout with e | u <;> simp only [hd] at h
      · simp at h
      · rcases ht : statsTestLoop c₂ a₂ [] with ⟨tout, c₃, a₃⟩
        rcases tout with e | fails <;> simp only [ht] at h
        · simp at h
        · simp only [Prod.mk.injEq] at h
          obtain ⟨-, hc, -⟩ := h
          rw [← hc]
          calc meas c₃ ≤ meas c₂ := statsTestLoop_meas_le ht
            _ ≤ meas c₁ := statsDividerLoop_meas_le hd
            _ < meas c := rnext_meas_lt hr

/-- `process_client_setup`: loop until a `client end` line (Premature Exit),
recording `test failure` lines into setup failures, and ending (with the line
requeued) at a `session start` line. -/
def processClientSetup (c : Cursor) (cr : CR) (a : Anoms) :
    Except Exc Unit × Cursor × CR × Anoms :=
  match h : rnext c a with
  | (.error e, c', a') => (.error e, c', cr, a')
  | (.ok (n, l), c', a') =>
    if isClientEnd l then (.error (.earlyExit n), c', cr, a')
    else
      let cr' := if isTestFailure l then
        { cr with setupFailures := cr.setupFailures ++ [(n, l)] } else cr
      if isSessionStart l then (.ok (), requeue c', cr', a')
      else processClientSetup c' cr' a'
termination_by meas c
decreasing_by
  all_goals exact rnext_meas_lt h

/-- The time-tracking state of `process_client_session`: first and last
stats-block timestamp seen, start of the current consecutive-pass run, and
the longest pass delta recorded so far. -/
structure SessSt where
  firstDt : Option Int
  lastDt : Option Int
  passStart : Option Int
  longest : Option Int
deriving DecidableEq

def initSessSt : SessSt := ⟨none, none, none, none⟩

/-- The per-block update of the session time-tracking state (the body of the
`stats block` branch of `process_client_session` after the block parser has
returned `(timestamp, passed)`). -/
def sessStep (st : SessSt) (ts : Int) (passed : Bool) : SessSt :=
  let st1 := { st with
    firstDt := match st.firstDt with | none => some ts | some x => some x,
    lastDt := some ts }
  if passed then
    match st1.passStart with
    | none => { st1 with passStart := some ts }
    | some ps =>
      let d := ts - ps
      { st1 with longest := some (match st1.longest with
          | none => d
          | some lg => max d lg) }
  else { st1 with passStart := none }

/-- The main loop of `process_client_session`: ends normally at a
`test finished` line, raises Premature Exit at a `client end` line, parses
stats blocks (requeuing the header first), and records stray `test failure`
lines into session failures. -/
def sessionLoop (c : Cursor) (cr : CR) (a : Anoms) (st : SessSt) :
    Except Exc Unit × Cursor × CR × Anoms × SessSt :=
  match h : rnext c a with
  | (.error e, c', a') => (.error e, c', cr, a', st)
  | (.ok (n, l), c', a') =>
    if isClientEnd l then (.error (.earlyExit n), c', cr, a', st)
    else if isTestFinished l then (.ok (), c', cr, a', st)
    else if isStatsHeader l then
      let cr₁ := { cr with blocks := cr.blocks.map (· + 1) }
      match h2 : processStatsBlock (requeue c') cr₁ a' false with
      | (.error e, c₂, cr₂, a₂) => (.error e, c₂, cr₂, a₂, st)
      | (.ok (ts, passed), c₂, cr₂, a₂) =>
        sessionLoop c₂ cr₂ a₂ (sessStep st ts passed)
    else
      let cr₁ := if isTestFailure l then
        { cr with sessionFailures := cr.sessionFailures ++ [(n, l)] } else cr
      sessionLoop c' cr₁ a' st
termination_by meas c
decreasing_by
  · exact lt_of_lt_of_le (processStatsBlock_meas_lt h2)
      (le_trans (requeue_meas _) (rnext_meas_lt h))
  · exact rnext_meas_lt h

/-- The `finally` block of `process_client_session`: a truthy longest-pass
delta (Python `if longest_pass_delta:`, false exactly for a zero timedelta)
is stored in whole seconds, and if both a first and a last timestamp were
seen their difference is stored as the session runtime. -/
def sessFinalize (cr : CR) (st : SessSt) : CR :=
  let cr₁ := match st.longest with
    | some d => if d = 0 then cr else { cr with longestPass := some d }
    | none => cr
  match st.lastDt, st.firstDt with
  | some lastD, some firstD => { cr₁ with sessionRuntime := some (lastD - firstD) }
  | _, _ => cr₁

/-- `process_client_session`: initialize the block count and time-tracking
state, run the loop, and apply the `finally` block on every exit path,
normal or exceptional. -/
def processClientSession (c : Cursor) (cr : CR) (a : Anoms) :
    Except Exc Unit × Cursor × CR × Anoms :=
  let (out, c', cr', a', st) := sessionLoop c { cr with blocks := some 0 } a initSessSt
  (out, c', sessFinalize cr' st, a')

/-- `process_client_cleanup`: loop until a `client end` line; a stats-block
header logs a `got stats after test finished` anomaly and triggers a
scan-only block parse; `test failure` lines are recorded into cleanup
failures. -/
def processClientCleanup (c : Cursor) (cr : CR) (a : Anoms) :
    Except Exc Unit × Cursor × CR × Anoms :=
  match h : rnext c a with
  | (.error e, c', a') => (.error e, c', cr, a')
  | (.ok (n, l), c', a') =>
    if isClientEnd l then (.ok (), c', cr, a')
    else if isStatsHeader l then
      let a₁ := logAnomaly n (.statsAfterFinished cr.name) a'
      match h2 : processStatsBlock (requeue c') cr a₁ true with
      | (.error e, c₂, cr₂, a₂) => (.error e, c₂, cr₂, a₂)
      | (.ok _, c₂, cr₂, a₂) => processClientCleanup c₂ cr₂ a₂
    else
      let cr₁ := if isTestFailure l then
        { cr with cleanupFailures := cr.cleanupFailures ++ [(n, l)] } else cr
      processClientCleanup c' cr₁ a'
termination_by meas c
decreasing_by
  · exact lt_of_lt_of_le (processStatsBlock_meas_lt h2)
      (le_trans (requeue_meas _) (rnext_meas_lt h))
  · exact rnext_meas_lt h

/-- `process_client`: read the `client start` line (crashing like the Python
`AttributeError` if it does not match), run setup, session and cleanup, and
catch `Client_Early_Exit_Error` by logging a single `<name> exited early`
anomaly at the carried line number and returning normally. -/
def processClient (c : Cursor) (a : Anoms) :
    Except Exc Unit × Cursor × CR × Anoms :=
  let cr := createClientResults
  match rnext c a with
  | (.error e, c', a') => (.error e, c', cr, a')
  | (.ok (_, l), c', a') =>
    match clientStartName l with
    | none => (.error .crash, c', cr, a')
    | some nm =>
      let cr₁ := { cr with name := some nm }
      match processClientSetup c' cr₁ a' with
      | (.error (.earlyExit k), c₂, cr₂, a₂) =>
          (.ok (), c₂, cr₂, logAnomaly k (.exitedEarly nm) a₂)
      | (.error e, c₂, cr₂, a₂) => (.error e, c₂, cr₂, a₂)
      | (.ok _, c₂, cr₂, a₂) =>
        match processClientSession c₂ cr₂ a₂ with
        | (.error (.earlyExit k), c₃, cr₃, a₃) =>
            (.ok (), c₃, cr₃, logAnomaly k (.exitedEarly nm) a₃)
        | (.error e, c₃, cr₃, a₃) => (.error e, c₃, cr₃, a₃)
        | (.ok _, c₃, cr₃, a₃) =>
          match processClientCleanup c₃ cr₃ a₃ with
          | (.error (.earlyExit k), c₄, cr₄, a₄) =>
              (.ok (), c₄, cr₄, logAnomaly k (.exitedEarly nm) a₄)
          | (.error e, c₄, cr₄, a₄) => (.error e, c₄, cr₄, a₄)
          | (.ok _, c₄, cr₄, a₄) => (.ok (), c₄, cr₄, a₄)

/-- The results-level wrapper of `process_client`: the client-results record
is appended to `results['clients']` on entry in the Python code, so the list
receives the (possibly only partly filled) record whatever the outcome. -/
def processClientR (c : Cursor) (res : Results) (a : Anoms) :
    Except Exc Unit × Cursor × Results × Anoms :=
  let (out, c', cr', a') := processClient c a
  (out, c', { res with clients := res.clients ++ [cr'] }, a')

/-- `process_steeplechase_setup`: a `for` loop that consumes lines until a
`client start` line (which is requeued); a `StopIteration` from the reader is
absorbed by the `for` construct, leaving the reader closed. -/
def processSteeplechaseSetup (c : Cursor) (a : Anoms) : Cursor × Anoms :=
  match h : rnext c a with
  | (.error _, c', a') => (c', a')
  | (.ok (_, l), c', a') =>
    if isClientStart l then (requeue c', a')
    else processSteeplechaseSetup c' a'
termination_by meas c
decreasing_by
  all_goals exact rnext_meas_lt h

/-- The final drain loop of `process_steeplechase_cleanup`: scan every
remaining line (for the anomaly side effect) until the reader is
exhausted. -/
def drainLoop (c : Cursor) (a : Anoms) : Cursor × Anoms :=
  match h : rnext c a with
  | (.error _, c', a') => (c', a')
  | (.ok _, c', a') => drainLoop c' a'
termination_by meas c
decreasing_by
  all_goals exact rnext_meas_lt h

/-- `process_steeplechase_cleanup`: skip one line, read the `Passed:` and
`Failed:` totals (an unmatched line crashes like the Python
`AttributeError`), then drain the remaining lines. -/
def processSteeplechaseCleanup (c : Cursor) (res : Results) (a : Anoms) :
    Except Exc Unit × Cursor × Results × Anoms :=
  match rnext c a with
  | (.error e, c', a') => (.error e, c', res, a')
  | (.ok _, c₁, a₁) =>
    match rnext c₁ a₁ with
    | (.error e, c', a') => (.error e, c', res, a')
    | (.ok (_, l₂), c₂, a₂) =>
      match totalPassedVal l₂ with
      | none => (.error .crash, c₂, res, a₂)
      | some p =>
        let res₁ := { res with totalPassed := some p }
        match rnext c₂ a₂ with
        | (.error e, c', a') => (.error e, c', res₁, a')
        | (.ok (_, l₃), c₃, a₃) =>
          match totalFailedVal l₃ with
          | none => (.error .crash, c₃, res₁, a₃)
          | some f =>
            let res₂ := { res₁ with totalFailed := some f }
            let (c₄, a₄) := drainLoop c₃ a₃
            (.ok (), c₄, res₂, a₄)

/-- `process_log`: harness setup, two client sections, harness cleanup. -/
def processLog (c : Cursor) (res : Results) (a : Anoms) :
    Except Exc Unit × Cursor × Results × Anoms :=
  let (c₁, a₁) := processSteeplechaseSetup c a
  match processClientR c₁ res a₁ with
  | (.error e, c₂, res₂, a₂) => (.error e, c₂, res₂, a₂)
  | (.ok _, c₂, res₂, a₂) =>
    match processClientR c₂ res₂ a₂ with
    | (.error e, c₃, res₃, a₃) => (.error e, c₃, res₃, a₃)
    | (.ok _, c₃, res₃, a₃) => processSteeplechaseCleanup c₃ res₃ a₃

/-- `parse`: run `process_log` over a fresh reader, catching `StopIteration`
(the numbered form logs the `Reached unexpected EOF` anomaly; the bare form
crashes on `err.args[0]`).  The overall session runtime is then computed from
`clients[0]` and `clients[1]`, which raises an uncaught `IndexError` (modelled
as `none`) when fewer than two client records exist.  The anomaly accumulator
`_anomalies` is module-level state threaded in and out, and the returned
record aliases it in its `anomalies` field. -/
def parse (log : List Line) (a : Anoms) : Option (Results × Anoms) :=
  let (out, _, res₁, a₁) := processLog (initCursor log) createResults a
  match out with
  | .ok _ =>
    match res₁.clients.get? 0, res₁.clients.get? 1 with
    | some r0, some r1 =>
      let res₂ := { res₁ with
        sessionRuntime := pyMin r0.sessionRuntime r1.sessionRuntime,
        anomalies := a₁ }
      some (res₂, a₁)
    | _, _ => none
  | .error (.eofNum k) =>
    let a₂ := logAnomaly k .unexpectedEOF a₁
    match res₁.clients.get? 0, res₁.clients.get? 1 with
    | some r0, some r1 =>
      let res₂ := { res₁ with
        sessionRuntime := pyMin r0.sessionRuntime r1.sessionRuntime,
        anomalies := a₂ }
      some (res₂, a₂)
    | _, _ => none
  | .error _ => none

/-!
## Cursor positioning

`atLines c ls r₂ b` says that the reader `c` is about to deliver the lines
`ls ++ r₂`, the first of them with line number `b`: either nothing is pending
and `ls ++ r₂` is the unread remainder, or the head of `ls` is the pending
requeued line (whose number `b` is the current line number, since replayed
lines do not advance the counter). -/
def atLines (c : Cursor) (ls r₂ : List Line) (b : Nat) : Prop :=
  c.closed = false ∧
  ((c.pend = false ∧ c.rest = ls ++ r₂ ∧ b = c.number + 1) ∨
   (c.pend = true ∧ ∃ l ls2, ls = l :: ls2 ∧ c.last? = some (c.number, l) ∧
      c.rest = ls2 ++ r₂ ∧ b = c.number))

/-- Delivering one line from a known position is deterministic: whatever the
pending state, `next()` returns the head of `ls` numbered `b` and leaves the
cursor in the canonical just-delivered state. -/
theorem atLines_rnext {c : Cursor} {l : Line} {u v : List Line} {b : Nat} (a : Anoms)
    (h : atLines c (l :: u) v b) (hsc : isScError l = false) :
    rnext c a = (.ok (b, l), ⟨u ++ v, b, some (b, l), false, false⟩, a) := by
  obtain ⟨hcl, hca⟩ := h
  rcases c with ⟨rest, num, w, p, cl⟩
  simp only at hcl
  subst hcl
  rcases hca with ⟨hp, hr, hb⟩ | ⟨hp, l', ls2, hls, hw, hr, hb⟩
  · simp only at hp hr
    subst hp hr hb
    simp [rnext, hsc, checkForAnomalies]
  · simp only at hp hw hr
    subst hp hw hr hb
    obtain ⟨rfl, rfl⟩ : l = l' ∧ u = ls2 := List.cons.injEq .. ▸ hls
    simp [rnext]

/-- After a fresh delivery the cursor is positioned at the remaining lines. -/
theorem atLines_after (l : Line) (ls r₂ : List Line) (b : Nat) :
    atLines ⟨ls ++ r₂, b, some (b, l), false, false⟩ ls r₂ (b + 1) := by
  exact ⟨rfl, Or.inl ⟨rfl, rfl, rfl⟩⟩

/-- After a requeue the cursor is positioned at the requeued line again, at
the unchanged number. -/
theorem atLines_requeued (l : Line) (ls r₂ : List Line) (b : Nat) :
    atLines ⟨ls ++ r₂, b, some (b, l), true, false⟩ (l :: ls) r₂ b := by
  exact ⟨rfl, Or.inr ⟨rfl, l, ls, rfl, rfl, rfl, rfl⟩⟩

theorem requeue_mk (ls : List Line) (n : Nat) (w : Option (Nat × Line)) (p cl : Bool) :
    requeue ⟨ls, n, w, p, cl⟩ = ⟨ls, n, w, true, cl⟩ := rfl

theorem resultAction_eq_none {l : Line} (h : isTestResult l = false) :
    resultAction l = none := by
  cases l <;> simp_all [isTestResult, resultAction]

/-- The `(line number, line)` pairs that the failure-recording loops append:
the lines of `ls` matching the `test failure` pattern, numbered from `b`. -/
def failuresOf (b : Nat) : List Line → List (Nat × Line)
  | [] => []
  | l :: ls => (if isTestFailure l then [(b, l)] else []) ++ failuresOf (b + 1) ls

/-- The failing test lines a stats block collects from consecutive
test-result lines with the given actions, numbered from `b`. -/
def actFails (b : Nat) : List String → List (Nat × Line)
  | [] => []
  | act :: rest =>
      (if act = "test_pass" then [] else [(b, Line.testResult act)]) ++ actFails (b + 1) rest

/-- Lines that the setup loop consumes without ending: neither `client end`
nor `session start` (and no harness error, so the anomaly log is unchanged). -/
def PlainSetup (ls : List Line) : Prop :=
  ∀ l ∈ ls, isClientEnd l = false ∧ isSessionStart l = false ∧ isScError l = false

/-- Lines that the session loop consumes without ending and without invoking
the stats-block parser. -/
def PlainSession (ls : List Line) : Prop :=
  ∀ l ∈ ls, isClientEnd l = false ∧ isTestFinished l = false ∧
    isStatsHeader l = false ∧ isScError l = false

/-- Lines that the cleanup loop consumes without ending and without invoking
the stats-block parser. -/
def PlainCleanup (ls : List Line) : Prop :=
  ∀ l ∈ ls, isClientEnd l = false ∧ isStatsHeader l = false ∧ isScError l = false

theorem processClientSetup_plain {ls : List Line} (hpl : PlainSetup ls) :
    ∀ {c : Cursor} {q : CR} {a : Anoms} {r₃ r₂ : List Line} {b : Nat},
    atLines c (ls ++ r₃) r₂ b →
    ∃ c', processClientSetup c q a =
        processClientSetup c'
          { q with setupFailures := q.setupFailures ++ failuresOf b ls } a ∧
      atLines c' r₃ r₂ (b + ls.length) := by
  induction ls with
  | nil =>
      intro c cr a r₃ r₂ b hat
      exact ⟨c, by simp [failuresOf], by simpa using hat⟩
  | cons l ls ih =>
      intro c cr a r₃ r₂ b hat
      obtain ⟨hce, hss, hsc⟩ := hpl l (by simp)
      have hpl' : PlainSetup ls := fun x hx => hpl x (by simp [hx])
      have step := atLines_rnext (c := c) (l := l) (u := ls ++ r₃) (v := r₂) (b := b) a hat hsc
      obtain ⟨c', heq, hat'⟩ := ih hpl'
        (c := ⟨(ls ++ r₃) ++ r₂, b, some (b, l), false, false⟩)
        (q := if isTestFailure l then
          { cr with setupFailures := cr.setupFailures ++ [(b, l)] } else cr)
        (a := a) (atLines_after l (ls ++ r₃) r₂ b)
      refine ⟨c', ?_, ?_⟩
      · conv_lhs => rw [processClientSetup]
        rw [step]
        simp only [hce, hss, Bool.false_eq_true, if_false, reduceIte]
        rw [heq]
        rcases cr with ⟨nm, bl, sr, lp, su, clf, sef, fb⟩
        cases hif : isTestFailure l <;>
          simp [hif, failuresOf, List.append_assoc]
      · have harith : b + 1 + ls.length = b + (l :: ls).length := by
          simp [List.length_cons]
          omega
        rw [← harith]
        exact hat'

theorem sessionLoop_plain {ls : List Line} (hpl : PlainSession ls) :
    ∀ {c : Cursor} {q : CR} {a : Anoms} {s : SessSt} {r₃ r₂ : List Line} {b : Nat},
    atLines c (ls ++ r₃) r₂ b →
    ∃ c', sessionLoop c q a s =
        sessionLoop c'
          { q with sessionFailures := q.sessionFailures ++ failuresOf b ls } a s ∧
      atLines c' r₃ r₂ (b + ls.length) := by
  induction ls with
  | nil =>
      intro c cr a st r₃ r₂ b hat
      exact ⟨c, by simp [failuresOf], by simpa using hat⟩
  | cons l ls ih =>
      intro c cr a st r₃ r₂ b hat
      obtain ⟨hce, htf, hsh, hsc⟩ := hpl l (by simp)
      have hpl' : PlainSession ls := fun x hx => hpl x (by simp [hx])
      have step := atLines_rnext (c := c) (l := l) (u := ls ++ r₃) (v := r₂) (b := b) a hat hsc
      obtain ⟨c', heq, hat'⟩ := ih hpl'
        (c := ⟨(ls ++ r₃) ++ r₂, b, some (b, l), false, false⟩)
        (q := if isTestFailure l then
          { cr with sessionFailures := cr.sessionFailures ++ [(b, l)] } else cr)
        (a := a) (s := st) (atLines_after l (ls ++ r₃) r₂ b)
      refine ⟨c', ?_, ?_⟩
      · conv_lhs => rw [sessionLoop]
        rw [step]
        simp only [hce, htf, hsh, Bool.false_eq_true, if_false, reduceIte]
        rw [heq]
        rcases cr with ⟨nm, bl, sr, lp, su, clf, sef, fb⟩
        cases hif : isTestFailure l <;>
          simp [hif, failuresOf, List.append_assoc]
      · have harith : b + 1 + ls.length = b + (l :: ls).length := by
          simp [List.length_cons]
          omega
        rw [← harith]
        exact hat'

theorem processClientCleanup_plain {ls : List Line} (hpl : PlainCleanup ls) :
    ∀ {c : Cursor} {q : CR} {a : Anoms} {r₃ r₂ : List Line} {b : Nat},
    atLines c (ls ++ r₃) r₂ b →
    ∃ c', processClientCleanup c q a =
        processClientCleanup c'
          { q with cleanupFailures := q.cleanupFailures ++ failuresOf b ls } a ∧
      atLines c' r₃ r₂ (b + ls.length) := by
  induction ls with
  | nil =>
      intro c cr a r₃ r₂ b hat
      exact ⟨c, by simp [failuresOf], by simpa using hat⟩
  | cons l ls ih =>
      intro c cr a r₃ r₂ b hat
      obtain ⟨hce, hsh, hsc⟩ := hpl l (by simp)
      have hpl' : PlainCleanup ls := fun x hx => hpl x (by simp [hx])
      have step := atLines_rnext (c := c) (l := l) (u := ls ++ r₃) (v := r₂) (b := b) a hat hsc
      obtain ⟨c', heq, hat'⟩ := ih hpl'
        (c := ⟨(ls ++ r₃) ++ r₂, b, some (b, l), false, false⟩)
        (q := if isTestFailure l then
          { cr with cleanupFailures := cr.cleanupFailures ++ [(b, l)] } else cr)
        (a := a) (atLines_after l (ls ++ r₃) r₂ b)
      refine ⟨c', ?_, ?_⟩
      · conv_lhs => rw [processClientCleanup]
        rw [step]
        simp only [hce, hsh, Bool.false_eq_true, if_false, reduceIte]
        rw [heq]
        rcases cr with ⟨nm, bl, sr, lp, su, clf, sef, fb⟩
        cases hif : isTestFailure l <;>
          simp [hif, failuresOf, List.append_assoc]
      · have harith : b + 1 + ls.length = b + (l :: ls).length := by
          simp [List.length_cons]
          omega
        rw [← harith]
        exact hat'

/-- The setup loop at a `session start` line: record nothing, requeue it and
return normally. -/
theorem processClientSetup_at_sessionStart {c : Cursor} {cr : CR} {a : Anoms}
    {tl r₂ : List Line} {b : Nat} (hat : atLines c (Line.sessionStart :: tl) r₂ b) :
    processClientSetup c cr a =
      (.ok (), ⟨tl ++ r₂, b, some (b, Line.sessionStart), true, false⟩, cr, a) := by
  rw [processClientSetup, atLines_rnext a hat (by simp [isScError])]
  simp [isClientEnd, isTestFailure, isSessionStart, requeue_mk]

/-- The setup loop at a `client end` line: raise Premature Exit carrying the
line number of the marker. -/
theorem processClientSetup_at_clientEnd {c : Cursor} {cr : CR} {a : Anoms}
    {tl r₂ : List Line} {b : Nat} (hat : atLines c (Line.clientEnd :: tl) r₂ b) :
    processClientSetup c cr a =
      (.error (.earlyExit b), ⟨tl ++ r₂, b, some (b, Line.clientEnd), false, false⟩, cr, a) := by
  rw [processClientSetup, atLines_rnext a hat (by simp [isScError])]
  simp [isClientEnd]

/-- The session loop at a `test finished` line: exit normally. -/
theorem sessionLoop_at_testFinished {c : Cursor} {cr : CR} {a : Anoms} {st : SessSt}
    {tl r₂ : List Line} {b : Nat} (hat : atLines c (Line.testFinished :: tl) r₂ b) :
    sessionLoop c cr a st =
      (.ok (), ⟨tl ++ r₂, b, some (b, Line.testFinished), false, false⟩, cr, a, st) := by
  rw [sessionLoop, atLines_rnext a hat (by simp [isScError])]
  simp [isClientEnd, isTestFinished]

/-- The session loop at a `client end` line: raise Premature Exit. -/
theorem sessionLoop_at_clientEnd {c : Cursor} {cr : CR} {a : Anoms} {st : SessSt}
    {tl r₂ : List Line} {b : Nat} (hat : atLines c (Line.clientEnd :: tl) r₂ b) :
    sessionLoop c cr a st =
      (.error (.earlyExit b), ⟨tl ++ r₂, b, some (b, Line.clientEnd), false, false⟩, cr, a, st) := by
  rw [sessionLoop, atLines_rnext a hat (by simp [isScError])]
  simp [isClientEnd]

/-- The cleanup loop at a `client end` line: exit normally. -/
theorem processClientCleanup_at_clientEnd {c : Cursor} {cr : CR} {a : Anoms}
    {tl r₂ : List Line} {b : Nat} (hat : atLines c (Line.clientEnd :: tl) r₂ b) :
    processClientCleanup c cr a =
      (.ok (), ⟨tl ++ r₂, b, some (b, Line.clientEnd), false, false⟩, cr, a) := by
  rw [processClientCleanup, atLines_rnext a hat (by simp [isScError])]
  simp [isClientEnd]

/-- The divider loop consumes non-blank lines without changing state while no
blank has been seen yet. -/
theorem statsDividerLoop_nb {nb : List Line}
    (hnb : ∀ l ∈ nb, isBlank l = false ∧ isScError l = false) :
    ∀ {c : Cursor} {a : Anoms} {r₃ r₂ : List Line} {b : Nat},
    atLines c (nb ++ r₃) r₂ b →
    ∃ c', statsDividerLoop c a false = statsDividerLoop c' a false ∧
      atLines c' r₃ r₂ (b + nb.length) := by
  induction nb with
  | nil =>
      intro c a r₃ r₂ b hat
      exact ⟨c, rfl, by simpa using hat⟩
  | cons l nb ih =>
      intro c a r₃ r₂ b hat
      obtain ⟨hbl, hsc⟩ := hnb l (by simp)
      have hnb' : ∀ x ∈ nb, isBlank x = false ∧ isScError x = false :=
        fun x hx => hnb x (by simp [hx])
      have step := atLines_rnext (c := c) (l := l) (u := nb ++ r₃) (v := r₂) (b := b) a hat hsc
      obtain ⟨c', heq, hat'⟩ := ih hnb'
        (c := ⟨(nb ++ r₃) ++ r₂, b, some (b, l), false, false⟩) (a := a)
        (atLines_after l (nb ++ r₃) r₂ b)
      refine ⟨c', ?_, ?_⟩
      · conv_lhs => rw [statsDividerLoop]
        rw [step]
        simp only [hbl, Bool.false_eq_true, if_false, reduceIte]
        exact heq
      · have harith : b + 1 + nb.length = b + (l :: nb).length := by
          simp [List.length_cons]
          omega
        rw [← harith]
        exact hat'

/-- The divider loop consumes a nonempty run of blank lines (from any
`inBlank` state) and then requeues the first non-blank line. -/
theorem statsDividerLoop_blanks {bl : List Line} (hbl : ∀ l ∈ bl, l = Line.blank) :
    ∀ {c : Cursor} {a : Anoms} {i : Bool} {stop : Line} {tl r₂ : List Line} {b : Nat},
    bl ≠ [] → atLines c (bl ++ stop :: tl) r₂ b →
    isBlank stop = false → isScError stop = false →
    statsDividerLoop c a i =
      (.ok (), ⟨tl ++ r₂, b + bl.length, some (b + bl.length, stop), true, false⟩, a) := by
  induction bl with
  | nil => intro c a ib stop tl r₂ b hne; exact absurd rfl hne
  | cons l bl ih =>
      intro c a ib stop tl r₂ b _ hat hsb hssc
      have hl : l = Line.blank := hbl l (by simp)
      subst hl
      have step := atLines_rnext (c := c) (l := Line.blank) (u := bl ++ stop :: tl)
        (v := r₂) (b := b) a hat (by simp [isScError])
      rw [statsDividerLoop, step]
      simp only [isBlank, if_true]
      cases bl with
      | nil =>
          have step2 := atLines_rnext (l := stop) (u := tl) (v := r₂) (b := b + 1) a
            (atLines_after Line.blank (stop :: tl) r₂ b) hssc
          simp only [List.nil_append]
          rw [statsDividerLoop, step2]
          simp [hsb, requeue_mk]
      | cons l₂ bl₂ =>
          have hbl' : ∀ x ∈ l₂ :: bl₂, x = Line.blank := fun x hx => hbl x (by simp [hx])
          have := ih hbl' (c := ⟨((l₂ :: bl₂) ++ stop :: tl) ++ r₂, b, some (b, Line.blank), false, false⟩)
            (a := a) (i := true) (by simp)
            (atLines_after Line.blank ((l₂ :: bl₂) ++ stop :: tl) r₂ b) hsb hssc
          rw [this]
          have harith : b + 1 + (l₂ :: bl₂).length = b + (Line.blank :: l₂ :: bl₂).length := by
            simp [List.length_cons]
            omega
          rw [harith]

/-- The test-result loop consumes exactly the consecutive test-result lines,
records the non-`test_pass` ones, and requeues the first non-matching
line. -/
theorem statsTestLoop_family : ∀ (acts : List String) {c : Cursor} {a : Anoms}
    {fs : List (Nat × Line)} {stop : Line} {tl r₂ : List Line} {b : Nat},
    atLines c (acts.map Line.testResult ++ stop :: tl) r₂ b →
    isTestResult stop = false → isScError stop = false →
    statsTestLoop c a fs =
      (.ok (fs ++ actFails b acts),
       ⟨tl ++ r₂, b + acts.length, some (b + acts.length, stop), true, false⟩, a) := by
  intro acts
  induction acts with
  | nil =>
      intro c a fs stop tl r₂ b hat hst hssc
      rw [statsTestLoop, atLines_rnext a hat hssc]
      simp [resultAction_eq_none hst, actFails, requeue_mk]
  | cons a₀ acts ih =>
      intro c a fs stop tl r₂ b hat hst hssc
      have step := atLines_rnext (c := c) (l := Line.testResult a₀)
        (u := acts.map Line.testResult ++ stop :: tl) (v := r₂) (b := b) a hat
        (by simp [isScError])
      rw [statsTestLoop, step]
      simp only [resultAction]
      rw [ih (c := ⟨(acts.map Line.testResult ++ stop :: tl) ++ r₂, b, some (b, Line.testResult a₀), false, false⟩)
        (atLines_after (Line.testResult a₀) (acts.map Line.testResult ++ stop :: tl) r₂ b) hst hssc]
      have harith : b + 1 + acts.length = b + (a₀ :: acts).length := by
        simp [List.length_cons]
        omega
      rw [harith]
      cases hp : decide (a₀ = "test_pass") <;>
        simp_all [actFails, List.append_assoc]

/-- `process_stats_block` over a complete block: header with timestamp `ts`,
an arbitrary non-blank pre-divider region, a nonempty blank run, consecutive
test-result lines with the given actions, with the first following line
requeued.  The failing lines are exactly the non-`test_pass` ones, the block
passes iff there are none, and the block joins the failed-blocks list exactly
when it failed and scan-only mode is off. -/
theorem processStatsBlock_family {nb blanks : List Line} {acts : List String}
    (hnb : ∀ l ∈ nb, isBlank l = false ∧ isScError l = false)
    (hblk : ∀ l ∈ blanks, l = Line.blank) (hne : blanks ≠ [])
    {ts : Int} {stop : Line} {tl r₂ : List Line} {c : Cursor} {cr : CR} {a : Anoms}
    {js : Bool} {b : Nat}
    (hat : atLines c
      (Line.statsHeader ts :: (nb ++ (blanks ++ (acts.map Line.testResult ++ stop :: tl)))) r₂ b)
    (hs1 : isBlank stop = false) (hs2 : isTestResult stop = false)
    (hs3 : isScError stop = false) :
    processStatsBlock c cr a js =
      (.ok (ts, (actFails (b + 1 + nb.length + blanks.length) acts).isEmpty),
       ⟨tl ++ r₂, b + 1 + nb.length + blanks.length + acts.length,
        some (b + 1 + nb.length + blanks.length + acts.length, stop), true, false⟩,
       if (actFails (b + 1 + nb.length + blanks.length) acts).isEmpty || js then cr
       else { cr with failedBlocks :=
         cr.failedBlocks ++ [⟨ts, actFails (b + 1 + nb.length + blanks.length) acts⟩] },
       a) := by
  have hdr := atLines_rnext a hat (by simp [isScError])
  rw [processStatsBlock, hdr]
  simp only [statsTs]
  obtain ⟨c₂, hd1, hat₂⟩ := statsDividerLoop_nb hnb (a := a)
    (atLines_after (Line.statsHeader ts)
      (nb ++ (blanks ++ (acts.map Line.testResult ++ stop :: tl))) r₂ b)
  obtain ⟨s, tl2, hrest, hsb, hssc⟩ :
      ∃ s tl2, acts.map Line.testResult ++ stop :: tl = s :: tl2 ∧
        isBlank s = false ∧ isScError s = false := by
    cases acts with
    | nil => exact ⟨stop, tl, rfl, hs1, hs3⟩
    | cons a₀ acts' => exact ⟨Line.testResult a₀, _, rfl, by simp [isBlank], by simp [isScError]⟩
  have hat₂' : atLines c₂ (blanks ++ s :: tl2) r₂ (b + 1 + nb.length) := by
    rw [← hrest]
    exact hat₂
  have hd2 := statsDividerLoop_blanks hblk (a := a) (i := false) hne hat₂' hsb hssc
  rw [hd1, hd2]
  simp only []
  have hat₃ : atLines
      ⟨tl2 ++ r₂, b + 1 + nb.length + blanks.length,
       some (b + 1 + nb.length + blanks.length, s), true, false⟩
      (acts.map Line.testResult ++ stop :: tl) r₂ (b + 1 + nb.length + blanks.length) := by
    rw [hrest]
    exact atLines_requeued s tl2 r₂ (b + 1 + nb.length + blanks.length)
  rw [statsTestLoop_family acts hat₃ hs2 hs3]
  simp

/-- One session-loop step at a stats-block header: requeue it, bump the block
count, parse the block and fold its (timestamp, passed) outcome into the
time-tracking state. -/
theorem sessionLoop_block_step {nb blanks : List Line} {acts : List String}
    (hnb : ∀ l ∈ nb, isBlank l = false ∧ isScError l = false)
    (hblk : ∀ l ∈ blanks, l = Line.blank) (hne : blanks ≠ [])
    {ts : Int} {stop : Line} {tl r₂ : List Line} {c : Cursor} {cr : CR} {a : Anoms}
    {st : SessSt} {b : Nat}
    (hat : atLines c
      (Line.statsHeader ts :: (nb ++ (blanks ++ (acts.map Line.testResult ++ stop :: tl)))) r₂ b)
    (hs1 : isBlank stop = false) (hs2 : isTestResult stop = false)
    (hs3 : isScError stop = false) :
    sessionLoop c cr a st =
      sessionLoop
        ⟨tl ++ r₂, b + 1 + nb.length + blanks.length + acts.length,
         some (b + 1 + nb.length + blanks.length + acts.length, stop), true, false⟩
        (if (actFails (b + 1 + nb.length + blanks.length) acts).isEmpty then
           { cr with blocks := cr.blocks.map (· + 1) }
         else
           { cr with
             blocks := cr.blocks.map (· + 1)
             failedBlocks := cr.failedBlocks ++
               [⟨ts, actFails (b + 1 + nb.length + blanks.length) acts⟩] })
        a (sessStep st ts (actFails (b + 1 + nb.length + blanks.length) acts).isEmpty) := by
  have hdr := atLines_rnext a hat (by simp [isScError])
  conv_lhs => rw [sessionLoop]
  rw [hdr]
  simp only [isClientEnd, isTestFinished, isStatsHeader, Bool.false_eq_true, if_false,
    reduceIte, if_true]
  rw [requeue_mk]
  rw [processStatsBlock_family hnb hblk hne
    (atLines_requeued (Line.statsHeader ts)
      (nb ++ (blanks ++ (acts.map Line.testResult ++ stop :: tl))) r₂ b) hs1 hs2 hs3]
  simp only [Bool.or_false]

/-- One standard-shape stats block in a log: header, one blank divider line,
one test-result line that passes or fails according to the flag. -/
def stdAct (p : Bool) : String := if p then "test_pass" else "test_unexpected_fail"

def stdBlockLines (tb : Int × Bool) : List Line :=
  [Line.statsHeader tb.1, Line.blank, Line.testResult (stdAct tb.2)]

def stdLines : List (Int × Bool) → List Line
  | [] => []
  | tb :: rest => stdBlockLines tb ++ stdLines rest

/-- The failed-blocks entries a run of standard-shape blocks produces when its
header lines are numbered `b, b+3, b+6, …`. -/
def stdFailedBlocks (b : Nat) : List (Int × Bool) → List Block
  | [] => []
  | (t, p) :: rest =>
      (if p then [] else [⟨t, [(b + 2, Line.testResult "test_unexpected_fail")]⟩]) ++
        stdFailedBlocks (b + 3) rest

/-- Folding the per-block time-tracking update over a list of
(timestamp, passed) block outcomes. -/
def sessFold (st : SessSt) : List (Int × Bool) → SessSt
  | [] => st
  | (t, p) :: rest => sessFold (sessStep st t p) rest

/-- One session-loop step over a standard-shape stats block. -/
theorem sessionLoop_std_step {t : Int} {p : Bool} {stop : Line} {tl r₂ : List Line}
    {c : Cursor} {cr : CR} {a : Anoms} {st : SessSt} {b : Nat}
    (hat : atLines c
      (Line.statsHeader t :: Line.blank :: Line.testResult (stdAct p) :: stop :: tl) r₂ b)
    (hs1 : isBlank stop = false) (hs2 : isTestResult stop = false)
    (hs3 : isScError stop = false) :
    sessionLoop c cr a st =
      sessionLoop ⟨tl ++ r₂, b + 3, some (b + 3, stop), true, false⟩
        { cr with
          blocks := cr.blocks.map (· + 1)
          failedBlocks := cr.failedBlocks ++
            (if p then [] else [⟨t, [(b + 2, Line.testResult "test_unexpected_fail")]⟩]) }
        a (sessStep st t p) := by
  have hat' : atLines c
      (Line.statsHeader t ::
        (([] : List Line) ++ ([Line.blank] ++ ([stdAct p].map Line.testResult ++ stop :: tl))))
      r₂ b := by
    simpa using hat
  rw [sessionLoop_block_step (by simp) (by simp) (by simp) hat' hs1 hs2 hs3]
  have eF : b + 1 + List.length ([] : List Line) + List.length [Line.blank] = b + 2 := by
    simp
  have eE : b + 1 + List.length ([] : List Line) + List.length [Line.blank] +
      List.length [stdAct p] = b + 3 := by
    simp
  rw [eE, eF]
  have efails : actFails (b + 2) [stdAct p] =
      if p then [] else [(b + 2, Line.testResult "test_unexpected_fail")] := by
    cases p <;> simp [actFails, stdAct]
  rw [efails]
  cases p <;>
    rcases cr with ⟨nm, bl, sr, lp, su, clf, sef, fb⟩ <;>
    simp [sessStep]

/-- The session loop over a run of standard-shape stats blocks followed by a
terminator line: every block is parsed, the block counter advances once per
block, failing blocks join the failed-blocks list, the time-tracking state is
folded block by block, and the cursor ends at the requeued terminator. -/
theorem sessionLoop_std : ∀ (bs : List (Int × Bool)) {c : Cursor} {cr : CR}
    {a : Anoms} {st : SessSt} {term : Line} {tl r₂ : List Line} {b : Nat},
    atLines c (stdLines bs ++ term :: tl) r₂ b →
    isStatsHeader term = false → isBlank term = false → isTestResult term = false →
    isScError term = false →
    sessionLoop c cr a st =
      sessionLoop ⟨tl ++ r₂, b + 3 * bs.length, some (b + 3 * bs.length, term), true, false⟩
        { cr with
          blocks := cr.blocks.map (· + bs.length)
          failedBlocks := cr.failedBlocks ++ stdFailedBlocks b bs }
        a (sessFold st bs) := by
  intro bs
  induction bs with
  | nil =>
      intro c cr a st term tl r₂ b hat h1 h2 h3 h4
      have hcr : { cr with
          blocks := cr.blocks.map (· + ([] : List (Int × Bool)).length)
          failedBlocks := cr.failedBlocks ++ stdFailedBlocks b [] } = cr := by
        rcases cr with ⟨nm, bl, sr, lp, su, clf, sef, fb⟩
        cases bl <;> simp [stdFailedBlocks]
      rw [hcr]
      simp only [stdLines, List.nil_append] at hat
      simp only [List.length_nil, Nat.mul_zero, Nat.add_zero, sessFold]
      conv_lhs => rw [sessionLoop]
      conv_rhs => rw [sessionLoop]
      rw [atLines_rnext a hat h4, atLines_rnext a (atLines_requeued term tl r₂ b) h4]
  | cons tb bs ih =>
      intro c cr a st term tl r₂ b hat h1 h2 h3 h4
      rcases tb with ⟨t, p⟩
      obtain ⟨stop, tl₁, hdec, hc1, hc2, hc3, hc4⟩ :
          ∃ stop tl₁, stdLines bs ++ term :: tl = stop :: tl₁ ∧
            isBlank stop = false ∧ isTestResult stop = false ∧ isScError stop = false ∧
            atLines ⟨tl₁ ++ r₂, b + 3, some (b + 3, stop), true, false⟩
              (stdLines bs ++ term :: tl) r₂ (b + 3) := by
        cases bs with
        | nil =>
            refine ⟨term, tl, by simp [stdLines], h2, h3, h4, ?_⟩
            simpa [stdLines] using atLines_requeued term tl r₂ (b + 3)
        | cons tb' bs' =>
            refine ⟨Line.statsHeader tb'.1,
              Line.blank :: Line.testResult (stdAct tb'.2) :: (stdLines bs' ++ term :: tl),
              by simp [stdLines, stdBlockLines], by simp [isBlank],
              by simp [isTestResult], by simp [isScError], ?_⟩
            simpa [stdLines, stdBlockLines] using
              atLines_requeued (Line.statsHeader tb'.1)
                (Line.blank :: Line.testResult (stdAct tb'.2) :: (stdLines bs' ++ term :: tl))
                r₂ (b + 3)
      have hat' : atLines c
          (Line.statsHeader t :: Line.blank :: Line.testResult (stdAct p) :: stop :: tl₁)
          r₂ b := by
        have := hat
        rw [show stdLines ((t, p) :: bs) ++ term :: tl =
          Line.statsHeader t :: Line.blank :: Line.testResult (stdAct p) ::
            (stdLines bs ++ term :: tl) from by simp [stdLines, stdBlockLines], hdec] at this
        exact this
      rw [sessionLoop_std_step hat' hc1 hc2 hc3]
      rw [ih hc4 h1 h2 h3 h4]
      have eN : b + 3 + 3 * bs.length = b + 3 * ((t, p) :: bs).length := by
        simp [List.length_cons]
        ring
      rw [eN]
      have eCR : { { cr with
            blocks := cr.blocks.map (· + 1)
            failedBlocks := cr.failedBlocks ++
              (if p then ([] : List Block)
               else [(⟨t, [(b + 2, Line.testResult "test_unexpected_fail")]⟩ : Block)]) } with
          blocks := (cr.blocks.map (· + 1)).map (· + bs.length)
          failedBlocks := (cr.failedBlocks ++
              (if p then ([] : List Block)
               else [(⟨t, [(b + 2, Line.testResult "test_unexpected_fail")]⟩ : Block)])) ++
            stdFailedBlocks (b + 3) bs } =
          { cr with
            blocks := cr.blocks.map (· + ((t, p) :: bs).length)
            failedBlocks := cr.failedBlocks ++ stdFailedBlocks b ((t, p) :: bs) } := by
        rcases cr with ⟨nm, bl, sr, lp, su, clf, sef, fb⟩
        cases bl <;> cases p <;>
          simp [stdFailedBlocks, List.append_assoc, Option.map, List.length_cons] <;>
          omega
      rw [eCR]
      rfl

/-- `process_client_session` over a run of standard-shape stats blocks ending
either normally (`test finished`) or in Premature Exit (`client end`): in both
cases the `finally` finalization runs on the folded time-tracking state, the
block count is the number of blocks, and failing blocks are collected. -/
theorem processClientSession_std {bs : List (Int × Bool)} {term : Line}
    {tl r₂ : List Line} {c : Cursor} {cr : CR} {a : Anoms} {b : Nat}
    (hat : atLines c (stdLines bs ++ term :: tl) r₂ b)
    (hterm : term = Line.testFinished ∨ term = Line.clientEnd) :
    processClientSession c cr a =
      ((if term = Line.testFinished then Except.ok ()
        else Except.error (Exc.earlyExit (b + 3 * bs.length))),
       ⟨tl ++ r₂, b + 3 * bs.length, some (b + 3 * bs.length, term), false, false⟩,
       sessFinalize
         { cr with
           blocks := some bs.length
           failedBlocks := cr.failedBlocks ++ stdFailedBlocks b bs }
         (sessFold initSessSt bs),
       a) := by
  have h1 : isStatsHeader term = false := by
    rcases hterm with h | h <;> subst h <;> simp [isStatsHeader]
  have h2 : isBlank term = false := by
    rcases hterm with h | h <;> subst h <;> simp [isBlank]
  have h3 : isTestResult term = false := by
    rcases hterm with h | h <;> subst h <;> simp [isTestResult]
  have h4 : isScError term = false := by
    rcases hterm with h | h <;> subst h <;> simp [isScError]
  unfold processClientSession
  rw [sessionLoop_std bs hat h1 h2 h3 h4]
  rcases hterm with h | h <;> subst h
  · rw [sessionLoop_at_testFinished
      (atLines_requeued Line.testFinished tl r₂ (b + 3 * bs.length))]
    rcases cr with ⟨nm, bl, sr, lp, su, clf, sef, fb⟩
    simp
  · rw [sessionLoop_at_clientEnd
      (atLines_requeued Line.clientEnd tl r₂ (b + 3 * bs.length))]
    rcases cr with ⟨nm, bl, sr, lp, su, clf, sef, fb⟩
    simp

/-!
## The longest-pass computation

`lpStep` is the (pass-run start, longest delta) part of the per-block update;
`passRuns` decomposes a block sequence into its maximal runs of consecutive
passing blocks; `maxRunDelta` is the specification-level quantity: the
largest timestamp delta across any maximal run (absent when no run has two
blocks). -/

def lpStep : (Option Int × Option Int) → (Int × Bool) → (Option Int × Option Int)
  | (ps, lg), (t, pass) =>
    if pass then
      match ps with
      | none => (some t, lg)
      | some s => (some s, some (match lg with | none => t - s | some x => max (t - s) x))
    else (none, lg)

theorem sessStep_first_last (st : SessSt) (t : Int) (p : Bool) :
    (sessStep st t p).firstDt =
      (match st.firstDt with | none => some t | some x => some x) ∧
    (sessStep st t p).lastDt = some t := by
  unfold sessStep
  cases p <;> rcases hps : st.passStart with _ | s <;> simp [hps]

theorem sessStep_lp (st : SessSt) (t : Int) (p : Bool) :
    ((sessStep st t p).passStart, (sessStep st t p).longest) =
      lpStep (st.passStart, st.longest) (t, p) := by
  unfold sessStep lpStep
  cases p <;> rcases hps : st.passStart with _ | s <;> simp [hps]

theorem sessFold_firstDt : ∀ (bs : List (Int × Bool)) (st : SessSt),
    (sessFold st bs).firstDt =
      (match st.firstDt with | some x => some x | none => bs.head?.map Prod.fst) := by
  intro bs
  induction bs with
  | nil => intro st; rcases h : st.firstDt <;> simp [sessFold, h]
  | cons tb rest ih =>
      intro st
      rcases tb with ⟨t, p⟩
      rw [sessFold, ih]
      rcases (sessStep_first_last st t p).1 with hf
      rw [hf]
      rcases h : st.firstDt <;> simp [h]

theorem sessFold_lastDt : ∀ (bs : List (Int × Bool)) (st : SessSt),
    (sessFold st bs).lastDt =
      (match bs.getLast? with | some tb => some tb.1 | none => st.lastDt) := by
  intro bs
  induction bs with
  | nil => intro st; simp [sessFold]
  | cons tb rest ih =>
      intro st
      rcases tb with ⟨t, p⟩
      rw [sessFold, ih]
      rcases (sessStep_first_last st t p).2 with hl
      cases hg : rest.getLast? with
      | none =>
          have : rest = [] := List.getLast?_eq_none_iff.mp hg
          subst this
          simp [hl]
      | some tb' =>
          have : ((t, p) :: rest).getLast? = some tb' := by
            cases rest with
            | nil => simp at hg
            | cons x xs => rw [List.getLast?_cons_cons]; exact hg
          rw [this]

theorem sessFold_lp : ∀ (bs : List (Int × Bool)) (st : SessSt),
    ((sessFold st bs).passStart, (sessFold st bs).longest) =
      bs.foldl lpStep (st.passStart, st.longest) := by
  intro bs
  induction bs with
  | nil => intro st; simp [sessFold]
  | cons tb rest ih =>
      intro st
      rcases tb with ⟨t, p⟩
      rw [sessFold, ih, List.foldl_cons, sessStep_lp]

/-- The timestamps of the maximal runs of consecutive passing blocks, in
order. -/
def passRuns : List (Int × Bool) → List (List Int)
  | [] => []
  | (t, p) :: rest =>
    if p then
      match rest with
      | [] => [[t]]
      | (_, p') :: _ =>
        if p' then
          match passRuns rest with
          | r :: rs => (t :: r) :: rs
          | [] => [[t]]
        else [t] :: passRuns rest
    else passRuns rest

/-- The timestamp delta across one run: last minus first, absent for runs of
fewer than two blocks. -/
def runDelta : List Int → Option Int
  | [] => none
  | [_] => none
  | a :: bb :: rest => some ((bb :: rest).getLastD bb - a)

/-- Combine an optional maximum with a new optional value. -/
def combineO : Option Int → Option Int → Option Int
  | none, y => y
  | some x, none => some x
  | some x, some y => some (max x y)

/-- The largest timestamp delta across any maximal run of consecutive passing
blocks (absent when no maximal run has at least two blocks). -/
def maxRunDelta (bs : List (Int × Bool)) : Option Int :=
  (passRuns bs).foldl (fun acc r => combineO acc (runDelta r)) none

theorem combineO_none_right (x : Option Int) : combineO x none = x := by
  cases x <;> rfl

theorem combineO_assoc (x y z : Option Int) :
    combineO (combineO x y) z = combineO x (combineO y z) := by
  cases x <;> cases y <;> cases z <;> simp [combineO, max_assoc]

theorem combineO_comm (x y : Option Int) : combineO x y = combineO y x := by
  cases x <;> cases y <;> simp [combineO, max_comm]

theorem foldl_combineO_init (rs : List (List Int)) :
    ∀ (x : Option Int),
    rs.foldl (fun acc r => combineO acc (runDelta r)) x =
      combineO x (rs.foldl (fun acc r => combineO acc (runDelta r)) none) := by
  induction rs with
  | nil => intro x; simp [combineO_none_right]
  | cons r rs ih =>
      intro x
      rw [List.foldl_cons, List.foldl_cons, ih (combineO x (runDelta r)),
        ih (combineO none (runDelta r)), combineO_assoc]
      rfl

theorem passRuns_nil : passRuns [] = [] := rfl

theorem passRuns_false (t : Int) (rest : List (Int × Bool)) :
    passRuns ((t, false) :: rest) = passRuns rest := rfl

theorem passRuns_true_nil (t : Int) : passRuns [(t, true)] = [[t]] := rfl

theorem passRuns_true_false (t v : Int) (rest' : List (Int × Bool)) :
    passRuns ((t, true) :: (v, false) :: rest') = [t] :: passRuns rest' := rfl

theorem passRuns_true_true (t v : Int) (rest' : List (Int × Bool)) :
    passRuns ((t, true) :: (v, true) :: rest') =
      (match passRuns ((v, true) :: rest') with
        | r :: rs => (t :: r) :: rs
        | [] => [[t]]) := rfl

theorem passRuns_pass_head (u : Int) (rest : List (Int × Bool)) :
    ∃ r rs, passRuns ((u, true) :: rest) = (u :: r) :: rs := by
  cases rest with
  | nil => exact ⟨[], [], rfl⟩
  | cons vb rest' =>
      rcases vb with ⟨v, p'⟩
      cases p'
      · exact ⟨[], passRuns rest', passRuns_true_false u v rest'⟩
      · rcases h : passRuns ((v, true) :: rest') with _ | ⟨r₀, rs₀⟩
        · exact ⟨[], [], by rw [passRuns_true_true, h]⟩
        · exact ⟨r₀, rs₀, by rw [passRuns_true_true, h]⟩

theorem mem_passRuns_mem_fst : ∀ (bs : List (Int × Bool)) (r : List Int) (x : Int),
    r ∈ passRuns bs → x ∈ r → x ∈ bs.map Prod.fst := by
  intro bs
  induction bs with
  | nil => intro r x hr; simp [passRuns_nil] at hr
  | cons tb rest ih =>
      intro r x hr hx
      rcases tb with ⟨t, p⟩
      cases p
      · rw [passRuns_false] at hr
        exact List.mem_cons_of_mem _ (ih r x hr hx)
      · cases rest with
        | nil =>
            rw [passRuns_true_nil] at hr
            simp only [List.mem_singleton] at hr
            subst hr
            simp only [List.mem_singleton] at hx
            simp [hx]
        | cons vb rest' =>
            rcases vb with ⟨v, p'⟩
            cases p'
            · rw [passRuns_true_false] at hr
              rcases List.mem_cons.mp hr with hr | hr
              · subst hr
                simp only [List.mem_singleton] at hx
                simp [hx]
              · have := ih r x (by rw [passRuns_false]; exact hr) hx
                exact List.mem_cons_of_mem _ this
            · rcases h : passRuns ((v, true) :: rest') with _ | ⟨r₀, rs₀⟩
              · rw [passRuns_true_true, h] at hr
                simp only [List.mem_singleton] at hr
                subst hr
                simp only [List.mem_singleton] at hx
                simp [hx]
              · rw [passRuns_true_true, h] at hr
                rcases List.mem_cons.mp hr with hr | hr
                · subst hr
                  rcases List.mem_cons.mp hx with hx | hx
                  · simp [hx]
                  · have := ih r₀ x (by rw [h]; simp) hx
                    exact List.mem_cons_of_mem _ this
                · have := ih r x (by rw [h]; simp [hr]) hx
                  exact List.mem_cons_of_mem _ this

theorem getLastD_cons_mem : ∀ (r : List Int) (v : Int), (v :: r).getLastD v ∈ v :: r := by
  intro r
  induction r with
  | nil => intro v; simp [List.getLastD]
  | cons x xs ih =>
      intro v
      rw [List.getLastD_cons]
      have hx := ih x
      rw [List.getLastD_cons] at hx
      have hgd : (x :: xs).getLastD v = xs.getLastD x := List.getLastD_cons v x xs
      rw [hgd]
      exact List.mem_cons_of_mem _ hx

theorem maxRunDelta_nil : maxRunDelta [] = none := rfl

theorem maxRunDelta_false (t : Int) (rest : List (Int × Bool)) :
    maxRunDelta ((t, false) :: rest) = maxRunDelta rest := by
  unfold maxRunDelta
  rw [passRuns_false]

theorem maxRunDelta_true_nil (s : Int) : maxRunDelta [(s, true)] = none := rfl

theorem maxRunDelta_true_false (s v : Int) (rest' : List (Int × Bool)) :
    maxRunDelta ((s, true) :: (v, false) :: rest') = maxRunDelta rest' := by
  unfold maxRunDelta
  rw [show passRuns ((s, true) :: (v, false) :: rest') = [s] :: passRuns rest' from
    passRuns_true_false s v rest']
  rw [List.foldl_cons]
  rfl

/-- The key absorption step: with chronologically ordered timestamps,
extending the run anchored at `s` by a passing block at `t` neither changes
the run decomposition beyond the first run nor its last-minus-first delta,
and the in-loop delta `t - s` is dominated by that run delta. -/
theorem combineO_star {s t : Int} {rest : List (Int × Bool)}
    (hmono : List.Pairwise (· ≤ ·) (s :: t :: rest.map Prod.fst)) :
    combineO (some (t - s)) (maxRunDelta ((s, true) :: rest)) =
      maxRunDelta ((s, true) :: (t, true) :: rest) := by
  cases rest with
  | nil =>
      show combineO (some (t - s)) (maxRunDelta [(s, true)]) =
        maxRunDelta [(s, true), (t, true)]
      rw [maxRunDelta_true_nil, combineO_none_right]
      rfl
  | cons vb rest' =>
      rcases vb with ⟨v, pv⟩
      cases pv
      · rw [maxRunDelta_true_false]
        have hpr : passRuns ((s, true) :: (t, true) :: (v, false) :: rest') =
            [s, t] :: passRuns rest' := by
          rw [passRuns_true_true, passRuns_true_false]
        unfold maxRunDelta
        rw [hpr, List.foldl_cons]
        rw [show combineO none (runDelta [s, t]) = some (t - s) from rfl]
        rw [foldl_combineO_init (passRuns rest') (some (t - s))]
      · obtain ⟨r₀, rs₀, hph⟩ := passRuns_pass_head v rest'
        have h1 : passRuns ((s, true) :: (v, true) :: rest') = (s :: v :: r₀) :: rs₀ := by
          rw [passRuns_true_true, hph]
        have h2 : passRuns ((t, true) :: (v, true) :: rest') = (t :: v :: r₀) :: rs₀ := by
          rw [passRuns_true_true, hph]
        have h3 : passRuns ((s, true) :: (t, true) :: (v, true) :: rest') =
            (s :: t :: v :: r₀) :: rs₀ := by
          rw [passRuns_true_true, h2]
        have hrd1 : runDelta (s :: v :: r₀) = some ((v :: r₀).getLastD v - s) := rfl
        have hrd3 : runDelta (s :: t :: v :: r₀) = some ((v :: r₀).getLastD v - s) := by
          show some ((t :: v :: r₀).getLastD t - s) = some ((v :: r₀).getLastD v - s)
          rw [List.getLastD_cons t t (v :: r₀), List.getLastD_cons v v r₀,
            List.getLastD_cons t v r₀]
        have hLmem : (v :: r₀).getLastD v ∈ v :: r₀ := getLastD_cons_mem r₀ v
        have hLfst : (v :: r₀).getLastD v ∈ ((v, true) :: rest').map Prod.fst :=
          mem_passRuns_mem_fst _ _ _ (by rw [hph]; exact List.mem_cons_self _ _) hLmem
        have htL : t ≤ (v :: r₀).getLastD v := by
          have h₁ := (List.pairwise_cons.mp hmono).2
          have h₂ := (List.pairwise_cons.mp h₁).1
          exact h₂ _ (by simpa using hLfst)
        unfold maxRunDelta
        rw [h1, h3, List.foldl_cons, List.foldl_cons, hrd1, hrd3]
        rw [show ∀ z : Option Int, combineO none z = z from fun z => rfl]
        rw [foldl_combineO_init rs₀ (some ((v :: r₀).getLastD v - s))]
        rw [← combineO_assoc]
        have habs : combineO (some (t - s)) (some ((v :: r₀).getLastD v - s)) =
            some ((v :: r₀).getLastD v - s) := by
          show some (max (t - s) ((v :: r₀).getLastD v - s)) =
            some ((v :: r₀).getLastD v - s)
          rw [max_eq_right (sub_le_sub_right htL s)]
        rw [habs]

/-- The main induction: the in-loop (pass-run anchor, longest delta) fold
computes exactly the maximal-run characterization, both from the idle state
and from a state anchored at `s` (which behaves like a pending passing block
at `s`).  Timestamps must be chronologically ordered. -/
theorem lp_main : ∀ bs : List (Int × Bool),
    (∀ lg, List.Pairwise (· ≤ ·) (bs.map Prod.fst) →
      (bs.foldl lpStep (none, lg)).2 = combineO lg (maxRunDelta bs)) ∧
    (∀ s lg, List.Pairwise (· ≤ ·) (s :: bs.map Prod.fst) →
      (bs.foldl lpStep (some s, lg)).2 = combineO lg (maxRunDelta ((s, true) :: bs))) := by
  intro bs
  induction bs with
  | nil =>
      constructor
      · intro lg _
        rw [List.foldl_nil, maxRunDelta_nil, combineO_none_right]
      · intro s lg _
        rw [List.foldl_nil, maxRunDelta_true_nil, combineO_none_right]
  | cons tb rest ih =>
      rcases tb with ⟨t, p⟩
      obtain ⟨ihU, ihA⟩ := ih
      constructor
      · intro lg hmono
        cases p
        · rw [List.foldl_cons, show lpStep (none, lg) (t, false) = (none, lg) from rfl,
            maxRunDelta_false]
          exact ihU lg (by simpa using hmono.of_cons)
        · rw [List.foldl_cons, show lpStep (none, lg) (t, true) = (some t, lg) from rfl]
          exact ihA t lg (by simpa using hmono)
      · intro s lg hmono
        have hmono' : List.Pairwise (· ≤ ·) (s :: t :: rest.map Prod.fst) := by
          simpa using hmono
        cases p
        · rw [List.foldl_cons, show lpStep (some s, lg) (t, false) = (none, lg) from rfl,
            maxRunDelta_true_false]
          exact ihU lg (hmono'.of_cons.of_cons)
        · rw [List.foldl_cons,
            show lpStep (some s, lg) (t, true) = (some s, combineO (some (t - s)) lg) from by
              cases lg <;> rfl]
          have hsub : (s :: rest.map Prod.fst).Sublist (s :: t :: rest.map Prod.fst) :=
            List.Sublist.cons₂ s (List.sublist_cons_self t (rest.map Prod.fst))
          rw [ihA s (combineO (some (t - s)) lg) (hmono'.sublist hsub)]
          rw [combineO_comm (some (t - s)) lg, combineO_assoc]
          rw [combineO_star hmono']

/-- The longest delta the session loop has recorded at the end equals the
largest maximal-run delta, for chronologically ordered timestamps. -/
theorem lpFinal_eq_maxRunDelta (bs : List (Int × Bool))
    (h : List.Pairwise (· ≤ ·) (bs.map Prod.fst)) :
    (bs.foldl lpStep (none, none)).2 = maxRunDelta bs := by
  rw [(lp_main bs).1 none h]
  rfl

theorem sessFinalize_longestPass (cr : CR) (st : SessSt) :
    (sessFinalize cr st).longestPass =
      (match st.longest with
        | some d => if d = 0 then cr.longestPass else some d
        | none => cr.longestPass) := by
  unfold sessFinalize
  rcases hl : st.longest with _ | d <;>
    rcases hlast : st.lastDt with _ | x <;>
    rcases hfirst : st.firstDt with _ | y <;>
    simp [hl, hlast, hfirst] <;>
    split <;> simp

theorem sessFinalize_runtime (cr : CR) (st : SessSt) :
    (sessFinalize cr st).sessionRuntime =
      (match st.lastDt, st.firstDt with
        | some lastD, some firstD => some (lastD - firstD)
        | _, _ => cr.sessionRuntime) := by
  unfold sessFinalize
  rcases hl : st.longest with _ | d <;>
    rcases hlast : st.lastDt with _ | x <;>
    rcases hfirst : st.firstDt with _ | y <;>
    simp [hl, hlast, hfirst] <;>
    split <;> simp

theorem sessFinalize_misc (cr : CR) (st : SessSt) :
    (sessFinalize cr st).name = cr.name ∧
    (sessFinalize cr st).blocks = cr.blocks ∧
    (sessFinalize cr st).failedBlocks = cr.failedBlocks ∧
    (sessFinalize cr st).setupFailures = cr.setupFailures ∧
    (sessFinalize cr st).sessionFailures = cr.sessionFailures ∧
    (sessFinalize cr st).cleanupFailures = cr.cleanupFailures := by
  unfold sessFinalize
  rcases hl : st.longest with _ | d <;>
    rcases hlast : st.lastDt with _ | x <;>
    rcases hfirst : st.firstDt with _ | y <;>
    simp [hl, hlast, hfirst] <;>
    split <;> simp

theorem sessFinalize_initSessSt (cr : CR) : sessFinalize cr initSessSt = cr := rfl

/-- A successful delivery leaves the cursor open, with nothing pending and the
delivered pair stored for requeue. -/
theorem rnext_ok_state {c : Cursor} {a : Anoms} {n : Nat} {l : Line} {c₁ : Cursor}
    {a₁ : Anoms} (h : rnext c a = (.ok (n, l), c₁, a₁)) :
    c₁.pend = false ∧ c₁.closed = false ∧ c₁.last? = some (n, l) := by
  rcases hp : c.pend with _ | _ <;>
    (unfold rnext at h
     repeat' split at h
     all_goals
       (simp only [Prod.mk.injEq] at h
        obtain ⟨h1, hc, h3⟩ := h
        subst hc
        simp_all))

/-- A delivery with nothing pending is a genuinely new line and advances the
1-based line number by one. -/
theorem rnext_fresh_number {c : Cursor} {a : Anoms} {n : Nat} {l : Line} {c₁ : Cursor}
    {a₁ : Anoms} (h : rnext c a = (.ok (n, l), c₁, a₁)) (hp : c.pend = false) :
    n = c.number + 1 ∧ c₁.number = n := by
  unfold rnext at h
  repeat' split at h
  all_goals
    (simp only [Prod.mk.injEq] at h
     obtain ⟨h1, hc, h3⟩ := h
     subst hc
     simp_all)

theorem rnext_replay_number {c : Cursor} {a : Anoms} {n : Nat} {l : Line} {c₁ : Cursor}
    {a₁ : Anoms} (h : rnext c a = (.ok (n, l), c₁, a₁)) (hp : c.pend = true)
    {m : Nat} {x : Line} (hl : c.last? = some (m, x)) :
    n = m ∧ c₁.number = c.number := by
  unfold rnext at h
  repeat' split at h
  all_goals
    (simp only [Prod.mk.injEq] at h
     obtain ⟨h1, hc, h3⟩ := h
     subst hc
     simp_all)

/-- `process_client_session` over a plain segment (no stats blocks, no
`test finished`) ending at a `client end` marker: Premature Exit propagates
with the marker's line number, and the (here trivial) finalization has
still run. -/
theorem processClientSession_early {u w v : List Line} {c : Cursor} {q : CR}
    {a : Anoms} {b : Nat} (hpl : PlainSession u)
    (hat : atLines c (u ++ Line.clientEnd :: w) v b) :
    processClientSession c q a =
      (.error (.earlyExit (b + u.length)),
       ⟨w ++ v, b + u.length, some (b + u.length, Line.clientEnd), false, false⟩,
       { q with
         blocks := some 0
         sessionFailures := q.sessionFailures ++ failuresOf b u },
       a) := by
  unfold processClientSession
  obtain ⟨c', heq, hat'⟩ := sessionLoop_plain hpl
    (q := { q with blocks := some 0 }) (a := a) (s := initSessSt) hat
  rw [heq, sessionLoop_at_clientEnd hat']
  rfl

/-- `process_client_session` over a plain segment ending at `test finished`:
normal exit. -/
theorem processClientSession_plain_finished {u w v : List Line} {c : Cursor}
    {q : CR} {a : Anoms} {b : Nat} (hpl : PlainSession u)
    (hat : atLines c (u ++ Line.testFinished :: w) v b) :
    processClientSession c q a =
      (.ok (),
       ⟨w ++ v, b + u.length, some (b + u.length, Line.testFinished), false, false⟩,
       { q with
         blocks := some 0
         sessionFailures := q.sessionFailures ++ failuresOf b u },
       a) := by
  unfold processClientSession
  obtain ⟨c', heq, hat'⟩ := sessionLoop_plain hpl
    (q := { q with blocks := some 0 }) (a := a) (s := initSessSt) hat
  rw [heq, sessionLoop_at_testFinished hat']
  rfl

theorem split_at_sessionStart : ∀ (mid : List Line),
    (∀ l ∈ mid, isSessionStart l = false) ∨
    ∃ su sess, mid = su ++ Line.sessionStart :: sess ∧
      ∀ l ∈ su, isSessionStart l = false := by
  intro mid
  induction mid with
  | nil => exact Or.inl (by simp)
  | cons l rest ih =>
      by_cases hl : isSessionStart l = true
      · have hss : l = Line.sessionStart := by
          cases l <;> simp_all [isSessionStart]
        subst hss
        exact Or.inr ⟨[], rest, rfl, by simp⟩
      · rcases ih with h | ⟨su, sess, heq, hsu⟩
        · refine Or.inl ?_
          intro x hx
          rcases List.mem_cons.mp hx with hx | hx
          · subst hx; simpa using hl
          · exact h x hx
        · refine Or.inr ⟨l :: su, sess, by rw [List.cons_append, heq], ?_⟩
          intro x hx
          rcases List.mem_cons.mp hx with hx | hx
          · subst hx; simpa using hl
          · exact hsu x hx

/-- **C5.**  A client section that reaches a `client end` marker before
`Test finished` — whether still in setup or already in the session sub-phase —
makes `process_client` log exactly one `<name> exited early` anomaly, carrying
the line number at which the marker was found, and return normally to the
Orchestrator with the cursor just past the marker (the condition is
recoverable, not fatal). -/
theorem client_early_exit_recovers {nm : String} {mid r₃ r₂ : List Line} {c : Cursor}
    {a : Anoms} {b : Nat}
    (hat : atLines c (Line.clientStart nm :: (mid ++ Line.clientEnd :: r₃)) r₂ b)
    (hmid : ∀ l ∈ mid, isClientEnd l = false ∧ isTestFinished l = false ∧
      isStatsHeader l = false ∧ isScError l = false) :
    ∃ cr', processClient c a =
        (.ok (),
         ⟨r₃ ++ r₂, b + mid.length + 1, some (b + mid.length + 1, Line.clientEnd),
          false, false⟩,
         cr', a ++ [(b + mid.length + 1, Msg.exitedEarly nm)]) ∧
      cr'.name = some nm := by
  have hstart := atLines_rnext a hat (by simp [isScError])
  rcases split_at_sessionStart mid with hno | ⟨su, sess, hmid_eq, hsu⟩
  · -- the client-end marker is met during the setup sub-phase
    have hplsu : PlainSetup mid := fun l hl =>
      ⟨(hmid l hl).1, hno l hl, (hmid l hl).2.2.2⟩
    obtain ⟨c', heq, hat'⟩ := processClientSetup_plain hplsu
      (c := ⟨(mid ++ Line.clientEnd :: r₃) ++ r₂, b, some (b, Line.clientStart nm),
        false, false⟩)
      (q := ⟨some nm, none, none, none, [], [], [], []⟩) (a := a)
      (atLines_after (Line.clientStart nm) (mid ++ Line.clientEnd :: r₃) r₂ b)
    have harith : b + 1 + mid.length = b + mid.length + 1 := by omega
    rw [harith] at hat'
    refine ⟨⟨some nm, none, none, none, failuresOf (b + 1) mid, [], [], []⟩, ?_, rfl⟩
    unfold processClient
    rw [hstart]
    simp only [clientStartName]
    rw [show ({ createClientResults with name := some nm } : CR) =
      ⟨some nm, none, none, none, [], [], [], []⟩ from rfl]
    rw [heq, processClientSetup_at_clientEnd hat']
    simp [logAnomaly]
  · -- setup advances at the session-start marker; the client-end marker is
    -- met during the session sub-phase
    subst hmid_eq
    have hplsu : PlainSetup su := fun l hl =>
      ⟨(hmid l (List.mem_append_left _ hl)).1, hsu l hl,
       (hmid l (List.mem_append_left _ hl)).2.2.2⟩
    have hat₀ : atLines
        ⟨((su ++ Line.sessionStart :: sess) ++ Line.clientEnd :: r₃) ++ r₂, b,
         some (b, Line.clientStart nm), false, false⟩
        (su ++ (Line.sessionStart :: (sess ++ Line.clientEnd :: r₃))) r₂ (b + 1) := by
      have := atLines_after (Line.clientStart nm)
        ((su ++ Line.sessionStart :: sess) ++ Line.clientEnd :: r₃) r₂ b
      simpa [List.append_assoc] using this
    obtain ⟨c', heq, hat'⟩ := processClientSetup_plain hplsu
      (q := ⟨some nm, none, none, none, [], [], [], []⟩) (a := a) hat₀
    have hplsess : PlainSession (Line.sessionStart :: sess) := by
      intro l hl
      rcases List.mem_cons.mp hl with hl | hl
      · subst hl
        exact ⟨rfl, rfl, rfl, rfl⟩
      · have hm := hmid l (List.mem_append_right su (List.mem_cons_of_mem _ hl))
        exact ⟨hm.1, hm.2.1, hm.2.2.1, hm.2.2.2⟩
    have hses := processClientSession_early
      (u := Line.sessionStart :: sess) (w := r₃) (v := r₂)
      (q := ⟨some nm, none, none, none, failuresOf (b + 1) su, [], [], []⟩) (a := a)
      hplsess
      (atLines_requeued Line.sessionStart (sess ++ Line.clientEnd :: r₃) r₂
        (b + 1 + su.length))
    refine ⟨⟨some nm, some 0, none, none, failuresOf (b + 1) su, [],
      failuresOf (b + 1 + su.length) (Line.sessionStart :: sess), []⟩, ?_, rfl⟩
    unfold processClient
    rw [hstart]
    simp only [clientStartName]
    rw [show ({ createClientResults with name := some nm } : CR) =
      ⟨some nm, none, none, none, [], [], [], []⟩ from rfl]
    rw [heq, processClientSetup_at_sessionStart hat']
    simp only [List.nil_append]
    rw [hses]
    have harith : b + 1 + su.length + (Line.sessionStart :: sess).length =
        b + (su ++ Line.sessionStart :: sess).length + 1 := by
      simp [List.length_cons, List.length_append]
      omega
    rw [harith]
    simp [logAnomaly]

/-- The failing lines a stats block records are exactly the test-result lines
at offsets whose action differs from `test_pass`. -/
theorem actFails_mem : ∀ (acts : List String) (b n : Nat) (l : Line),
    (n, l) ∈ actFails b acts ↔
      ∃ i act, acts.get? i = some act ∧ act ≠ "test_pass" ∧ n = b + i ∧
        l = Line.testResult act := by
  intro acts
  induction acts with
  | nil => intro b n l; simp [actFails]
  | cons a₀ rest ih =>
      intro b n l
      by_cases hp : a₀ = "test_pass"
      · simp only [actFails, hp, if_true, List.nil_append]
        rw [ih (b + 1)]
        constructor
        · rintro ⟨i, act, hget, hact, rfl, rfl⟩
          exact ⟨i + 1, act, by simpa using hget, hact, by omega, rfl⟩
        · rintro ⟨i, act, hget, hact, rfl, rfl⟩
          cases i with
          | zero =>
              simp only [List.get?_cons_zero, Option.some.injEq] at hget
              subst hget
              simp [hp] at hact
          | succ j =>
              simp only [List.get?_cons_succ] at hget
              exact ⟨j, act, hget, hact, by omega, rfl⟩
      · simp only [actFails, hp, if_false, reduceIte, List.singleton_append, List.mem_cons]
        constructor
        · intro h
          rcases h with h | h
          · simp only [Prod.mk.injEq] at h
            exact ⟨0, a₀, rfl, hp, by omega, h.2⟩
          · obtain ⟨i, act, hget, hact, rfl, rfl⟩ := (ih (b + 1) n l).mp h
            exact ⟨i + 1, act, by simpa using hget, hact, by omega, rfl⟩
        · rintro ⟨i, act, hget, hact, rfl, rfl⟩
          cases i with
          | zero =>
              simp only [List.get?_cons_zero, Option.some.injEq] at hget
              subst hget
              exact Or.inl (by simp)
          | succ j =>
              simp only [List.get?_cons_succ] at hget
              refine Or.inr ?_
              have := (ih (b + 1) (b + 1 + j) (Line.testResult act)).mpr
                ⟨j, act, hget, hact, rfl, rfl⟩
              have harith : b + (j + 1) = b + 1 + j := by omega
              rw [harith]
              exact this

theorem actFails_isEmpty_iff : ∀ (acts : List String) (b : Nat),
    (actFails b acts).isEmpty = true ↔ ∀ x ∈ acts, x = "test_pass" := by
  intro acts
  induction acts with
  | nil => intro b; simp [actFails]
  | cons a₀ rest ih =>
      intro b
      by_cases hp : a₀ = "test_pass"
      · simp only [actFails, hp, if_true, List.nil_append]
        rw [ih (b + 1)]
        constructor
        · intro h x hx
          rcases List.mem_cons.mp hx with hx | hx
          · subst hx; rfl
          · exact h x hx
        · intro h x hx
          exact h x (List.mem_cons_of_mem _ hx)
      · simp only [actFails, hp, if_false, reduceIte, List.singleton_append]
        constructor
        · intro h; simp [List.isEmpty] at h
        · intro h
          exact absurd (h a₀ (by simp)) hp

/-- The failure-recording loops record exactly the lines matching the
`test failure` pattern, with their line numbers. -/
theorem failuresOf_mem : ∀ (ls : List Line) (b n : Nat) (l : Line),
    (n, l) ∈ failuresOf b ls ↔
      ∃ i x, ls.get? i = some x ∧ isTestFailure x = true ∧ n = b + i ∧ l = x := by
  intro ls
  induction ls with
  | nil => intro b n l; simp [failuresOf]
  | cons l₀ rest ih =>
      intro b n l
      by_cases hp : isTestFailure l₀ = true
      · simp only [failuresOf, hp, if_true, List.singleton_append, List.mem_cons]
        constructor
        · intro h
          rcases h with h | h
          · simp only [Prod.mk.injEq] at h
            exact ⟨0, l₀, rfl, hp, by omega, h.2⟩
          · obtain ⟨i, x, hget, hfail, hn, hl⟩ := (ih (b + 1) n l).mp h
            exact ⟨i + 1, x, by simpa using hget, hfail, by omega, hl⟩
        · rintro ⟨i, x, hget, hfail, hn, hl⟩
          subst hl
          cases i with
          | zero =>
              simp only [List.get?_cons_zero, Option.some.injEq] at hget
              subst hget
              exact Or.inl (by simp [hn])
          | succ j =>
              simp only [List.get?_cons_succ] at hget
              refine Or.inr ?_
              have := (ih (b + 1) (b + 1 + j) l).mpr ⟨j, l, hget, hfail, rfl, rfl⟩
              have harith : n = b + 1 + j := by omega
              rw [harith]
              exact this
      · simp only [failuresOf, show (if isTestFailure l₀ then [(b, l₀)] else []) = [] from by
          simp [hp], List.nil_append]
        rw [ih (b + 1)]
        constructor
        · rintro ⟨i, x, hget, hfail, hn, hl⟩
          exact ⟨i + 1, x, by simpa using hget, hfail, by omega, hl⟩
        · rintro ⟨i, x, hget, hfail, hn, hl⟩
          cases i with
          | zero =>
              simp only [List.get?_cons_zero, Option.some.injEq] at hget
              subst hget
              simp [hfail] at hp
          | succ j =>
              simp only [List.get?_cons_succ] at hget
              exact ⟨j, x, hget, hfail, by omega, hl⟩

/-- The complete setup sub-phase over a plain segment: ends at the requeued
`session start` line, with exactly the failure-pattern lines recorded. -/
theorem processClientSetup_family {su r₃ r₂ : List Line} {c : Cursor} {cr : CR}
    {a : Anoms} {b : Nat} (hpl : PlainSetup su)
    (hat : atLines c (su ++ Line.sessionStart :: r₃) r₂ b) :
    processClientSetup c cr a =
      (.ok (),
       ⟨r₃ ++ r₂, b + su.length, some (b + su.length, Line.sessionStart), true, false⟩,
       { cr with setupFailures := cr.setupFailures ++ failuresOf b su }, a) := by
  obtain ⟨c', heq, hat'⟩ := processClientSetup_plain hpl (q := cr) (a := a) hat
  rw [heq, processClientSetup_at_sessionStart hat']

/-- The complete cleanup sub-phase over a plain segment: ends at the consumed
`client end` line, with exactly the failure-pattern lines recorded. -/
theorem processClientCleanup_family {cl r₃ r₂ : List Line} {c : Cursor} {cr : CR}
    {a : Anoms} {b : Nat} (hpl : PlainCleanup cl)
    (hat : atLines c (cl ++ Line.clientEnd :: r₃) r₂ b) :
    processClientCleanup c cr a =
      (.ok (),
       ⟨r₃ ++ r₂, b + cl.length, some (b + cl.length, Line.clientEnd), false, false⟩,
       { cr with cleanupFailures := cr.cleanupFailures ++ failuresOf b cl }, a) := by
  obtain ⟨c', heq, hat'⟩ := processClientCleanup_plain hpl (q := cr) (a := a) hat
  rw [heq, processClientCleanup_at_clientEnd hat']

/-- **C8.**  Within one stats block, the parser consumes the consecutive
test-result lines following the divider region, records exactly those whose
reported action is not `test_pass` as failing test lines (with their line
numbers), stops at the first non-matching line and requeues it (the very next
`next()` re-delivers that line at an unadvanced number), and reports the block
as passed exactly when no failing test line was recorded. -/
theorem stats_block_test_loop_spec {nb blanks : List Line} {acts : List String}
    (hnb : ∀ l ∈ nb, isBlank l = false ∧ isScError l = false)
    (hblk : ∀ l ∈ blanks, l = Line.blank) (hne : blanks ≠ [])
    {ts : Int} {stop : Line} {tl r₂ : List Line} {c : Cursor} {cr : CR} {a : Anoms}
    {js : Bool} {b : Nat}
    (hat : atLines c
      (Line.statsHeader ts :: (nb ++ (blanks ++ (acts.map Line.testResult ++ stop :: tl)))) r₂ b)
    (hs1 : isBlank stop = false) (hs2 : isTestResult stop = false)
    (hs3 : isScError stop = false) :
    ∃ cE crE,
      processStatsBlock c cr a js =
        (.ok (ts, (actFails (b + 1 + nb.length + blanks.length) acts).isEmpty),
         cE, crE, a) ∧
      rnext cE a = (.ok (b + 1 + nb.length + blanks.length + acts.length, stop),
        { cE with pend := false }, a) ∧
      ((actFails (b + 1 + nb.length + blanks.length) acts).isEmpty = true ↔
        ∀ x ∈ acts, x = "test_pass") ∧
      (∀ n l, (n, l) ∈ actFails (b + 1 + nb.length + blanks.length) acts ↔
        ∃ i act, acts.get? i = some act ∧ act ≠ "test_pass" ∧
          n = b + 1 + nb.length + blanks.length + i ∧ l = Line.testResult act) := by
  refine ⟨⟨tl ++ r₂, b + 1 + nb.length + blanks.length + acts.length,
      some (b + 1 + nb.length + blanks.length + acts.length, stop), true, false⟩,
    _, processStatsBlock_family hnb hblk hne hat hs1 hs2 hs3, ?_, ?_, ?_⟩
  · exact atLines_rnext a
      (atLines_requeued stop tl r₂ (b + 1 + nb.length + blanks.length + acts.length)) hs3
  · exact actFails_isEmpty_iff acts (b + 1 + nb.length + blanks.length)
  · intro n l
    exact actFails_mem acts (b + 1 + nb.length + blanks.length) n l

theorem psb_char_trivial {cr cr' : CR} (hcr : cr = cr')
    {out : Except Exc (Int × Bool)} {e : Exc} (ho : Except.error e = out) (js : Bool) :
    ∃ fb, cr'.failedBlocks = cr.failedBlocks ++ fb ∧
      (js = true → fb = []) ∧
      (∀ blk ∈ fb, blk.failedTests ≠ []) ∧
      (∀ ts, out = .ok (ts, true) → fb = []) ∧
      (∀ ts, out = .ok (ts, false) → js = false → fb ≠ []) := by
  subst hcr
  subst ho
  refine ⟨[], by simp, fun _ => rfl, ?_, ?_, ?_⟩
  · intro blk hblk
    exact absurd hblk (by simp)
  · intro ts hts
    cases hts
  · intro ts hts hjs
    cases hts

theorem processStatsBlock_failedBlocks {c : Cursor} {cr : CR} {a : Anoms} {js : Bool}
    {out : Except Exc (Int × Bool)} {c' : Cursor} {cr' : CR} {a' : Anoms}
    (h : processStatsBlock c cr a js = (out, c', cr', a')) :
    ∃ fb, cr'.failedBlocks = cr.failedBlocks ++ fb ∧
      (js = true → fb = []) ∧
      (∀ blk ∈ fb, blk.failedTests ≠ []) ∧
      (∀ ts, out = .ok (ts, true) → fb = []) ∧
      (∀ ts, out = .ok (ts, false) → js = false → fb ≠ []) := by
  unfold processStatsBlock at h
  rcases hr : rnext c a with ⟨o1, c₁, a₁⟩
  rcases o1 with e | ⟨n, l⟩ <;> simp only [hr] at h
  · simp only [Prod.mk.injEq] at h
    obtain ⟨ho, hc, hcr, ha⟩ := h
    exact psb_char_trivial hcr ho js
  · rcases hts : statsTs l with _ | ts₀ <;> simp only [hts] at h
    · simp only [Prod.mk.injEq] at h
      obtain ⟨ho, hc, hcr, ha⟩ := h
      exact psb_char_trivial hcr ho js
    · rcases hd : statsDividerLoop c₁ a₁ false with ⟨o2, c₂, a₂⟩
      rcases o2 with e | u <;> simp only [hd] at h
      · simp only [Prod.mk.injEq] at h
        obtain ⟨ho, hc, hcr, ha⟩ := h
        exact psb_char_trivial hcr ho js
      · rcases ht : statsTestLoop c₂ a₂ [] with ⟨o3, c₃, a₃⟩
        rcases o3 with e | fails <;> simp only [ht] at h
        · simp only [Prod.mk.injEq] at h
          obtain ⟨ho, hc, hcr, ha⟩ := h
          exact psb_char_trivial hcr ho js
        · simp only [Prod.mk.injEq] at h
          obtain ⟨ho, hc, hcr, ha⟩ := h
          by_cases hfe : fails.isEmpty = true
          · refine ⟨[], ?_, fun _ => rfl, fun blk hblk => absurd hblk (by simp),
              fun ts hts => rfl, ?_⟩
            · rw [← hcr]
              simp [hfe]
            · intro ts hts hjs
              rw [← ho] at hts
              simp only [Except.ok.injEq, Prod.mk.injEq] at hts
              rw [hfe] at hts
              cases hts.2
          · have hfe' : fails.isEmpty = false := by simpa using hfe
            by_cases hjs : js = true
            · refine ⟨[], ?_, fun _ => rfl, fun blk hblk => absurd hblk (by simp),
                fun ts hts => rfl, ?_⟩
              · rw [← hcr]
                simp [hjs]
              · intro ts hts hjs'
                rw [hjs] at hjs'
                cases hjs'
            · have hjs' : js = false := by simpa using hjs
              refine ⟨[⟨ts₀, fails⟩], ?_, fun hj => absurd hj hjs, ?_, ?_, ?_⟩
              · rw [← hcr]
                simp [hfe', hjs']
              · intro blk hblk
                simp only [List.mem_singleton] at hblk
                subst hblk
                simpa [List.isEmpty_iff] using hfe
              · intro ts hts
                rw [← ho] at hts
                simp only [Except.ok.injEq, Prod.mk.injEq] at hts
                rw [hfe'] at hts
                cases hts.2
              · intro ts hts hj
                simp

/-!
## The failed-blocks discipline

`FBInv cr` says every block recorded in the client's failed-blocks list
holds at least one failing test line.  The stats-block parser establishes
it and every phase preserves it; the setup and cleanup phases in fact never
touch the failed-blocks list at all (cleanup parses its stray blocks in
scan-only mode).
-/

def FBInv (cr : CR) : Prop := ∀ blk ∈ cr.failedBlocks, blk.failedTests ≠ []

theorem FBInv_of_eq {x y : CR} (h : y.failedBlocks = x.failedBlocks)
    (hq : FBInv x) : FBInv y := by
  intro blk hblk
  rw [h] at hblk
  exact hq blk hblk

/-- Scan-only mode leaves the client-results record untouched. -/
theorem processStatsBlock_justScan {c : Cursor} {cr : CR} {a : Anoms}
    {o : Except Exc (Int × Bool)} {c' : Cursor} {cr' : CR} {a' : Anoms}
    (h : processStatsBlock c cr a true = (o, c', cr', a')) : cr' = cr := by
  unfold processStatsBlock at h
  rcases hr : rnext c a with ⟨o1, c₁, a₁⟩
  rcases o1 with e | ⟨n, l⟩ <;> simp only [hr] at h
  · simp only [Prod.mk.injEq] at h
    exact h.2.2.1.symm
  · rcases hts : statsTs l with _ | ts <;> simp only [hts] at h
    · simp only [Prod.mk.injEq] at h
      exact h.2.2.1.symm
    · rcases hd : statsDividerLoop c₁ a₁ false with ⟨o2, c₂, a₂⟩
      rcases o2 with e | u2 <;> simp only [hd] at h
      · simp only [Prod.mk.injEq] at h
        exact h.2.2.1.symm
      · rcases ht : statsTestLoop c₂ a₂ [] with ⟨o3, c₃, a₃⟩
        rcases o3 with e | fails <;> simp only [ht] at h
        · simp only [Prod.mk.injEq] at h
          exact h.2.2.1.symm
        · simp only [Bool.or_true, reduceIte, Prod.mk.injEq] at h
          exact h.2.2.1.symm

theorem processStatsBlock_FBInv {c : Cursor} {cr : CR} {a : Anoms} {j : Bool}
    {o : Except Exc (Int × Bool)} {c' : Cursor} {cr' : CR} {a' : Anoms}
    (h : processStatsBlock c cr a j = (o, c', cr', a')) (hq : FBInv cr) :
    FBInv cr' := by
  obtain ⟨fb, hfb, -, hne, -, -⟩ := processStatsBlock_failedBlocks h
  intro blk hblk
  rw [hfb] at hblk
  rcases List.mem_append.mp hblk with hm | hm
  · exact hq blk hm
  · exact hne blk hm

/-- The setup loop never touches the failed-blocks list. -/
theorem processClientSetup_fb {c : Cursor} {cr : CR} {a : Anoms}
    {o : Except Exc Unit} {c' : Cursor} {cr' : CR} {a' : Anoms}
    (h : processClientSetup c cr a = (o, c', cr', a')) :
    cr'.failedBlocks = cr.failedBlocks := by
  induction c, cr, a using processClientSetup.induct with
  | case1 c cr a e c₁ a₁ hr =>
      rw [processClientSetup, hr] at h
      simp only [Prod.mk.injEq] at h
      rw [← h.2.2.1]
  | case2 c cr a n l c₁ a₁ hr hce =>
      rw [processClientSetup, hr] at h
      simp only [if_pos hce, Prod.mk.injEq] at h
      rw [← h.2.2.1]
  | case3 c cr a n l c₁ a₁ hr hce hss =>
      rw [processClientSetup, hr] at h
      simp only [if_neg hce, if_pos hss, Prod.mk.injEq] at h
      rw [← h.2.2.1]
      split <;> rfl
  | case4 c cr a n l c₁ a₁ hr hce w hss ih =>
      have hw : w = (if isTestFailure l then
        { cr with setupFailures := cr.setupFailures ++ [(n, l)] } else cr) := rfl
      rw [processClientSetup, hr] at h
      simp only [if_neg hce, if_neg hss] at h
      rw [← hw] at h
      rw [ih h, hw]
      split <;> rfl

/-- The cleanup loop never touches the failed-blocks list: its stray stats
blocks are parsed in scan-only mode. -/
theorem processClientCleanup_fb {c : Cursor} {cr : CR} {a : Anoms}
    {o : Except Exc Unit} {c' : Cursor} {cr' : CR} {a' : Anoms}
    (h : processClientCleanup c cr a = (o, c', cr', a')) :
    cr'.failedBlocks = cr.failedBlocks := by
  induction c, cr, a using processClientCleanup.induct with
  | case1 c cr a e c₁ a₁ hr =>
      rw [processClientCleanup, hr] at h
      simp only [Prod.mk.injEq] at h
      rw [← h.2.2.1]
  | case2 c cr a n l c₁ a₁ hr hce =>
      rw [processClientCleanup, hr] at h
      simp only [if_pos hce, Prod.mk.injEq] at h
      rw [← h.2.2.1]
  | case3 c cr a n l c₁ a₁ hr hce hsh w e c₂ cr₂ a₂ hpsb =>
      have hw : w = logAnomaly n (Msg.statsAfterFinished cr.name) a₁ := rfl
      rw [hw] at hpsb
      rw [processClientCleanup, hr] at h
      simp only [if_neg hce, if_pos hsh] at h
      rw [hpsb] at h
      simp only [Prod.mk.injEq] at h
      rw [← h.2.2.1, processStatsBlock_justScan hpsb]
  | case4 c cr a n l c₁ a₁ hr hce hsh w v c₂ cr₂ a₂ hpsb ih =>
      have hw : w = logAnomaly n (Msg.statsAfterFinished cr.name) a₁ := rfl
      rw [hw] at hpsb
      rw [processClientCleanup, hr] at h
      simp only [if_neg hce, if_pos hsh] at h
      rw [hpsb] at h
      simp only [] at h
      rw [ih h, processStatsBlock_justScan hpsb]
  | case5 c cr a n l c₁ a₁ hr hce hsh w ih =>
      have hw : w = (if isTestFailure l then
        { cr with cleanupFailures := cr.cleanupFailures ++ [(n, l)] } else cr) := rfl
      rw [processClientCleanup, hr] at h
      simp only [if_neg hce, if_neg hsh] at h
      rw [← hw] at h
      rw [ih h, hw]
      split <;> rfl

theorem sessionLoop_FBInv {c : Cursor} {cr : CR} {a : Anoms} {st : SessSt}
    {o : Except Exc Unit} {c' : Cursor} {cr' : CR} {a' : Anoms} {t' : SessSt}
    (h : sessionLoop c cr a st = (o, c', cr', a', t')) (hq : FBInv cr) :
    FBInv cr' := by
  induction c, cr, a, st using sessionLoop.induct with
  | case1 c cr a st e c₁ a₁ hr =>
      rw [sessionLoop, hr] at h
      simp only [Prod.mk.injEq] at h
      exact FBInv_of_eq (congrArg CR.failedBlocks h.2.2.1.symm) hq
  | case2 c cr a st n l c₁ a₁ hr hce =>
      rw [sessionLoop, hr] at h
      simp only [if_pos hce, Prod.mk.injEq] at h
      exact FBInv_of_eq (congrArg CR.failedBlocks h.2.2.1.symm) hq
  | case3 c cr a st n l c₁ a₁ hr hce htf =>
      rw [sessionLoop, hr] at h
      simp only [if_neg hce, if_pos htf, Prod.mk.injEq] at h
      exact FBInv_of_eq (congrArg CR.failedBlocks h.2.2.1.symm) hq
  | case4 c cr a st n l c₁ a₁ hr hce htf hsh w e c₂ cr₂ a₂ hpsb =>
      have hw : w = { cr with blocks := cr.blocks.map (· + 1) } := rfl
      rw [hw] at hpsb
      rw [sessionLoop, hr] at h
      simp only [if_neg hce, if_neg htf, if_pos hsh] at h
      rw [hpsb] at h
      simp only [Prod.mk.injEq] at h
      refine FBInv_of_eq (congrArg CR.failedBlocks h.2.2.1.symm) ?_
      exact processStatsBlock_FBInv hpsb (FBInv_of_eq rfl hq)
  | case5 c cr a st n l c₁ a₁ hr hce htf hsh w ts passed c₂ cr₂ a₂ hpsb ih =>
      have hw : w = { cr with blocks := cr.blocks.map (· + 1) } := rfl
      rw [hw] at hpsb
      rw [sessionLoop, hr] at h
      simp only [if_neg hce, if_neg htf, if_pos hsh] at h
      rw [hpsb] at h
      simp only [] at h
      exact ih h (processStatsBlock_FBInv hpsb (FBInv_of_eq rfl hq))
  | case6 c cr a st n l c₁ a₁ hr hce htf hsh w ih =>
      have hw : w = (if isTestFailure l then
        { cr with sessionFailures := cr.sessionFailures ++ [(n, l)] } else cr) := rfl
      rw [sessionLoop, hr] at h
      simp only [if_neg hce, if_neg htf, if_neg hsh] at h
      rw [← hw] at h
      refine ih h ?_
      rw [hw]
      split <;> exact FBInv_of_eq rfl hq

theorem processClientSession_FBInv {c : Cursor} {cr : CR} {a : Anoms}
    {o : Except Exc Unit} {c' : Cursor} {cr' : CR} {a' : Anoms}
    (h : processClientSession c cr a = (o, c', cr', a')) (hq : FBInv cr) :
    FBInv cr' := by
  unfold processClientSession at h
  rcases hs : sessionLoop c { cr with blocks := some 0 } a initSessSt with
    ⟨o1, c₁, cr₁, a₁, st₁⟩
  simp only [hs, Prod.mk.injEq] at h
  obtain ⟨-, -, hcr, -⟩ := h
  have h1 : FBInv cr₁ := sessionLoop_FBInv hs (FBInv_of_eq rfl hq)
  rw [← hcr]
  exact FBInv_of_eq (sessFinalize_misc cr₁ st₁).2.2.1 h1

/-- Whatever its outcome, a client section produces a client-results record
satisfying the failed-blocks invariant. -/
theorem processClient_FBInv {c : Cursor} {a : Anoms}
    {o : Except Exc Unit} {c' : Cursor} {cr' : CR} {a' : Anoms}
    (h : processClient c a = (o, c', cr', a')) : FBInv cr' := by
  have h0 : FBInv createClientResults := by
    intro blk hblk
    cases hblk
  unfold processClient at h
  rcases hr : rnext c a with ⟨o1, c₁, a₁⟩
  rcases o1 with e | ⟨n, l⟩ <;> simp only [hr] at h
  · simp only [Prod.mk.injEq] at h
    exact FBInv_of_eq (congrArg CR.failedBlocks h.2.2.1.symm) h0
  · rcases hn : clientStartName l with _ | nm <;> simp only [hn] at h
    · simp only [Prod.mk.injEq] at h
      exact FBInv_of_eq (congrArg CR.failedBlocks h.2.2.1.symm) h0
    · have h1 : FBInv ({ createClientResults with name := some nm } : CR) := by
        intro blk hblk
        cases hblk
      rcases hsu : processClientSetup c₁ { createClientResults with name := some nm } a₁
        with ⟨o2, c₂, cr₂, a₂⟩
      have h2 : FBInv cr₂ := FBInv_of_eq (processClientSetup_fb hsu) h1
      rcases o2 with e2 | u2
      · rcases e2 with k | k | _ | _ <;> simp only [hsu, Prod.mk.injEq] at h <;>
          exact FBInv_of_eq (congrArg CR.failedBlocks h.2.2.1.symm) h2
      · simp only [hsu] at h
        rcases hse : processClientSession c₂ cr₂ a₂ with ⟨o3, c₃, cr₃, a₃⟩
        have h3 : FBInv cr₃ := processClientSession_FBInv hse h2
        rcases o3 with e3 | u3
        · rcases e3 with k | k | _ | _ <;> simp only [hse, Prod.mk.injEq] at h <;>
            exact FBInv_of_eq (congrArg CR.failedBlocks h.2.2.1.symm) h3
        · simp only [hse] at h
          rcases hcl : processClientCleanup c₃ cr₃ a₃ with ⟨o4, c₄, cr₄, a₄⟩
          have h4 : FBInv cr₄ := FBInv_of_eq (processClientCleanup_fb hcl) h3
          rcases o4 with e4 | u4
          · rcases e4 with k | k | _ | _ <;> simp only [hcl, Prod.mk.injEq] at h <;>
              exact FBInv_of_eq (congrArg CR.failedBlocks h.2.2.1.symm) h4
          · simp only [hcl, Prod.mk.injEq] at h
            exact FBInv_of_eq (congrArg CR.failedBlocks h.2.2.1.symm) h4

theorem processClientR_FBInv {c : Cursor} {r : Results} {a : Anoms}
    {o : Except Exc Unit} {c' : Cursor} {r' : Results} {a' : Anoms}
    (h : processClientR c r a = (o, c', r', a'))
    (hq : ∀ cr ∈ r.clients, FBInv cr) : ∀ cr ∈ r'.clients, FBInv cr := by
  unfold processClientR at h
  rcases hc : processClient c a with ⟨o1, c₁, cr₁, a₁⟩
  simp only [hc, Prod.mk.injEq] at h
  obtain ⟨-, -, hres, -⟩ := h
  rw [← hres]
  intro cr hcr
  simp only [List.mem_append, List.mem_singleton] at hcr
  rcases hcr with hm | rfl
  · exact hq cr hm
  · exact processClient_FBInv hc

/-- The harness-cleanup phase only fills the totals: the clients list is
unchanged. -/
theorem processSteeplechaseCleanup_clients {c : Cursor} {r : Results} {a : Anoms}
    {o : Except Exc Unit} {c' : Cursor} {r' : Results} {a' : Anoms}
    (h : processSteeplechaseCleanup c r a = (o, c', r', a')) :
    r'.clients = r.clients := by
  unfold processSteeplechaseCleanup at h
  rcases h1 : rnext c a with ⟨o1, c₁, a₁⟩
  rcases o1 with e | p1 <;> simp only [h1] at h
  · simp only [Prod.mk.injEq] at h
    rw [← h.2.2.1]
  · rcases h2 : rnext c₁ a₁ with ⟨o2, c₂, a₂⟩
    rcases o2 with e | ⟨n2, l2⟩ <;> simp only [h2] at h
    · simp only [Prod.mk.injEq] at h
      rw [← h.2.2.1]
    · rcases hp : totalPassedVal l2 with _ | p <;> simp only [hp] at h
      · simp only [Prod.mk.injEq] at h
        rw [← h.2.2.1]
      · rcases h3 : rnext c₂ a₂ with ⟨o3, c₃, a₃⟩
        rcases o3 with e | ⟨n3, l3⟩ <;> simp only [h3] at h
        · simp only [Prod.mk.injEq] at h
          rw [← h.2.2.1]
        · rcases hf : totalFailedVal l3 with _ | f <;> simp only [hf] at h
          · simp only [Prod.mk.injEq] at h
            rw [← h.2.2.1]
          · rcases hd : drainLoop c₃ a₃ with ⟨c₄, a₄⟩
            simp only [hd, Prod.mk.injEq] at h
            rw [← h.2.2.1]

theorem processLog_FBInv {c : Cursor} {r : Results} {a : Anoms}
    {o : Except Exc Unit} {c' : Cursor} {r' : Results} {a' : Anoms}
    (h : processLog c r a = (o, c', r', a'))
    (hq : ∀ cr ∈ r.clients, FBInv cr) : ∀ cr ∈ r'.clients, FBInv cr := by
  unfold processLog at h
  rcases hs : processSteeplechaseSetup c a with ⟨c₁, a₁⟩
  simp only [hs] at h
  rcases h1 : processClientR c₁ r a₁ with ⟨o1, c₂, r₂, a₂⟩
  have hq2 := processClientR_FBInv h1 hq
  rcases o1 with e | u1 <;> simp only [h1] at h
  · simp only [Prod.mk.injEq] at h
    rw [← h.2.2.1]
    exact hq2
  · rcases h2 : processClientR c₂ r₂ a₂ with ⟨o2, c₃, r₃, a₃⟩
    have hq3 := processClientR_FBInv h2 hq2
    rcases o2 with e | u2 <;> simp only [h2] at h
    · simp only [Prod.mk.injEq] at h
      rw [← h.2.2.1]
      exact hq3
    · rw [processSteeplechaseCleanup_clients h]
      exact hq3

/-- Every client record of a returned parse satisfies the failed-blocks
invariant. -/
theorem parse_FBInv {log : List Line} {a : Anoms} {r : Results} {a' : Anoms}
    (h : parse log a = some (r, a')) : ∀ cr ∈ r.clients, FBInv cr := by
  unfold parse at h
  rcases hp : processLog (initCursor log) createResults a with ⟨o, c₁, r₁, a₁⟩
  have hq1 : ∀ cr ∈ r₁.clients, FBInv cr :=
    processLog_FBInv hp (by intro cr hcr; cases hcr)
  simp only [hp] at h
  rcases o with e | u
  · rcases e with k | k | _ | _ <;> simp only at h
    · exact absurd h (by simp)
    · rcases hg0 : r₁.clients.get? 0 with _ | r0 <;> simp only [hg0] at h
      · exact absurd h (by simp)
      · rcases hg1 : r₁.clients.get? 1 with _ | r1 <;> simp only [hg1] at h
        · exact absurd h (by simp)
        · simp only [Option.some.injEq, Prod.mk.injEq] at h
          obtain ⟨hres, -⟩ := h
          rw [← hres]
          intro cr hcr
          exact hq1 cr hcr
    · exact absurd h (by simp)
    · exact absurd h (by simp)
  · rcases hg0 : r₁.clients.get? 0 with _ | r0 <;> simp only [hg0] at h
    · exact absurd h (by simp)
    · rcases hg1 : r₁.clients.get? 1 with _ | r1 <;> simp only [hg1] at h
      · exact absurd h (by simp)
      · simp only [Option.some.injEq, Prod.mk.injEq] at h
        obtain ⟨hres, -⟩ := h
        rw [← hres]
        intro cr hcr
        exact hq1 cr hcr

/-- One cleanup-loop step at a stats-block header: the header is requeued and
re-parsed in scan-only mode, a single `got stats after test finished` anomaly
is logged at the header's line number, and the client-results record — its
failed-blocks list included — is completely unchanged, even when the stray
block contains failing tests. -/
theorem cleanupLoop_block_step {nb blanks : List Line} {acts : List String}
    (hnb : ∀ l ∈ nb, isBlank l = false ∧ isScError l = false)
    (hblk : ∀ l ∈ blanks, l = Line.blank) (hne : blanks ≠ [])
    {ts : Int} {stop : Line} {tl r₂ : List Line} {c : Cursor} {cr : CR} {a : Anoms}
    {b : Nat}
    (hat : atLines c
      (Line.statsHeader ts :: (nb ++ (blanks ++ (acts.map Line.testResult ++ stop :: tl)))) r₂ b)
    (hs1 : isBlank stop = false) (hs2 : isTestResult stop = false)
    (hs3 : isScError stop = false) :
    processClientCleanup c cr a =
      processClientCleanup
        ⟨tl ++ r₂, b + 1 + nb.length + blanks.length + acts.length,
         some (b + 1 + nb.length + blanks.length + acts.length, stop), true, false⟩
        cr (a ++ [(b, Msg.statsAfterFinished cr.name)]) := by
  have hdr := atLines_rnext a hat (by simp [isScError])
  conv_lhs => rw [processClientCleanup]
  rw [hdr]
  simp only [isClientEnd, isStatsHeader, Bool.false_eq_true, if_false, reduceIte, if_true]
  rw [requeue_mk]
  rw [processStatsBlock_family hnb hblk hne
    (atLines_requeued (Line.statsHeader ts)
      (nb ++ (blanks ++ (acts.map Line.testResult ++ stop :: tl))) r₂ b) hs1 hs2 hs3]
  simp [logAnomaly]

/-- **C6.**  The failed-blocks discipline.  (i) One run of the stats-block
parser extends the client's failed-blocks list by some suffix `fb` in which
every block has at least one failing test; `fb` is empty in scan-only mode
and whenever the block passed, and nonempty whenever the block failed with
scan-only off (the session sub-phase calls it with scan-only off, cleanup
with it on).  (ii) Across a whole `parse`, every block in every returned
client's failed-blocks list has at least one failing test — a block with 0
failing tests is never present.  (iii) The cleanup loop never touches the
failed-blocks list at all.  (iv) A stats block met during cleanup is scanned
in scan-only mode: the step logs exactly one `got stats after test finished`
anomaly and leaves the whole client-results record unchanged, failing tests
in the block notwithstanding. -/
theorem failed_blocks_discipline :
    (∀ (c : Cursor) (cr : CR) (a : Anoms) (j : Bool) (o : Except Exc (Int × Bool))
      (c' : Cursor) (cr' : CR) (a' : Anoms),
      processStatsBlock c cr a j = (o, c', cr', a') →
      ∃ fb, cr'.failedBlocks = cr.failedBlocks ++ fb ∧
        (j = true → fb = []) ∧
        (∀ blk ∈ fb, blk.failedTests ≠ []) ∧
        (∀ ts, o = .ok (ts, true) → fb = []) ∧
        (∀ ts, o = .ok (ts, false) → j = false → fb ≠ [])) ∧
    (∀ (log : List Line) (a : Anoms) (r : Results) (a' : Anoms),
      parse log a = some (r, a') →
      ∀ cr ∈ r.clients, ∀ blk ∈ cr.failedBlocks, blk.failedTests ≠ []) ∧
    (∀ (c : Cursor) (cr : CR) (a : Anoms) (o : Except Exc Unit)
      (c' : Cursor) (cr' : CR) (a' : Anoms),
      processClientCleanup c cr a = (o, c', cr', a') →
      cr'.failedBlocks = cr.failedBlocks) ∧
    (∀ (nb blanks : List Line) (acts : List String),
      (∀ l ∈ nb, isBlank l = false ∧ isScError l = false) →
      (∀ l ∈ blanks, l = Line.blank) → blanks ≠ [] →
      ∀ (ts : Int) (stop : Line) (tl r₂ : List Line) (c : Cursor) (cr : CR)
        (a : Anoms) (b : Nat),
      atLines c
        (Line.statsHeader ts :: (nb ++ (blanks ++ (acts.map Line.testResult ++ stop :: tl)))) r₂ b →
      isBlank stop = false → isTestResult stop = false → isScError stop = false →
      processClientCleanup c cr a =
        processClientCleanup
          ⟨tl ++ r₂, b + 1 + nb.length + blanks.length + acts.length,
           some (b + 1 + nb.length + blanks.length + acts.length, stop), true, false⟩
          cr (a ++ [(b, Msg.statsAfterFinished cr.name)])) := by
  refine ⟨?_, ?_, ?_, ?_⟩
  · intro c cr a j o c' cr' a' h
    exact processStatsBlock_failedBlocks h
  · intro log a r a' h
    exact parse_FBInv h
  · intro c cr a o c' cr' a' h
    exact processClientCleanup_fb h
  · intro nb blanks acts hnb hblk hne ts stop tl r₂ c cr a b hat hs1 hs2 hs3
    exact cleanupLoop_block_step hnb hblk hne hat hs1 hs2 hs3

/-!
## Two clients and the overall runtime
-/

/-- **C3.**  When the whole orchestrated sequence completes normally, the
results document holds exactly two client records — the first produced by the
first client section of the log, the second by the second, i.e. in order of
first appearance — and `parse` returns those results with the overall session
runtime set to the (Python 2) minimum of the two per-client session runtimes,
`None` counting below every number. -/
theorem parse_two_clients_min_runtime {log : List Line} {a₀ : Anoms} {d : Cursor}
    {r : Results} {w : Anoms}
    (h : processLog (initCursor log) createResults a₀ = (.ok (), d, r, w)) :
    ∃ c₁ a₁ c₂ cr₁ a₂ c₃ cr₂ a₃,
      processSteeplechaseSetup (initCursor log) a₀ = (c₁, a₁) ∧
      processClient c₁ a₁ = (.ok (), c₂, cr₁, a₂) ∧
      processClient c₂ a₂ = (.ok (), c₃, cr₂, a₃) ∧
      r.clients = [cr₁, cr₂] ∧
      parse log a₀ =
        some ({ r with
                sessionRuntime := pyMin cr₁.sessionRuntime cr₂.sessionRuntime
                anomalies := w }, w) := by
  have h0 := h
  unfold processLog at h
  rcases hs : processSteeplechaseSetup (initCursor log) a₀ with ⟨c₁, a₁⟩
  simp only [hs] at h
  unfold processClientR at h
  rcases hc1 : processClient c₁ a₁ with ⟨o1, c₂, cr₁, a₂⟩
  simp only [hc1] at h
  rcases o1 with e | u1 <;> simp only [] at h
  · simp at h
  · rcases hc2 : processClient c₂ a₂ with ⟨o2, c₃, cr₂, a₃⟩
    simp only [hc2] at h
    rcases o2 with e | u2 <;> simp only [] at h
    · simp at h
    · rcases u1
      rcases u2
      have hcl : r.clients = [cr₁, cr₂] := by
        rw [processSteeplechaseCleanup_clients h]
        simp [createResults]
      refine ⟨c₁, a₁, c₂, cr₁, a₂, c₃, cr₂, a₃, rfl, hc1, hc2, hcl, ?_⟩
      unfold parse
      simp only [h0, hcl, List.get?]

/-!
## Concrete executions
-/

/-- A fresh reader is positioned at the whole log, first line numbered 1. -/
theorem atLines_init (log : List Line) : atLines (initCursor log) log [] 1 :=
  ⟨rfl, Or.inl ⟨rfl, (List.append_nil log).symm, rfl⟩⟩

/-- The harness-setup loop at a `client start` line: requeue it and return. -/
theorem processSteeplechaseSetup_at {nm : String} {tl r₂ : List Line} {c : Cursor}
    {a : Anoms} {b : Nat} (hat : atLines c (Line.clientStart nm :: tl) r₂ b) :
    processSteeplechaseSetup c a =
      (⟨tl ++ r₂, b, some (b, Line.clientStart nm), true, false⟩, a) := by
  rw [processSteeplechaseSetup, atLines_rnext a hat (by simp [isScError])]
  simp [isClientStart, requeue_mk]

/-- Draining an exhausted reader just closes it. -/
theorem drainLoop_empty (n : Nat) (w : Option (Nat × Line)) (a : Anoms) :
    drainLoop ⟨[], n, w, false, false⟩ a = (⟨[], n, w, false, true⟩, a) := by
  rw [drainLoop]
  simp [rnext]

/-- The harness-cleanup phase over its minimal tail: one skipped line, the two
totals, and an exhausted reader. -/
theorem processSteeplechaseCleanup_std {x : Line} {p f : Nat} {c : Cursor}
    {r : Results} {a : Anoms} {b : Nat}
    (hat : atLines c (x :: Line.totalPassed p :: Line.totalFailed f :: []) [] b)
    (hx : isScError x = false) :
    processSteeplechaseCleanup c r a =
      (.ok (), ⟨[], b + 2, some (b + 2, Line.totalFailed f), false, true⟩,
       { r with totalPassed := some p, totalFailed := some f }, a) := by
  have h1 := atLines_rnext a hat hx
  have h2 := atLines_rnext a
    (atLines_after x (Line.totalPassed p :: Line.totalFailed f :: []) [] b)
    (by simp [isScError])
  have h3 := atLines_rnext a
    (atLines_after (Line.totalPassed p) (Line.totalFailed f :: []) [] (b + 1))
    (by simp [isScError])
  unfold processSteeplechaseCleanup
  simp only [h1, h2, h3, totalPassedVal, totalFailedVal, List.nil_append]
  rw [drainLoop_empty]

/-- A minimal complete client section: `client start`, `session start`,
`Test finished`, `client end`, with nothing recorded beyond the name and the
zero block count. -/
theorem processClient_std {nm : String} {tl r₂ : List Line} {c : Cursor} {a : Anoms}
    {b : Nat}
    (hat : atLines c (Line.clientStart nm :: Line.sessionStart ::
      Line.testFinished :: Line.clientEnd :: tl) r₂ b) :
    processClient c a =
      (.ok (), ⟨tl ++ r₂, b + 3, some (b + 3, Line.clientEnd), false, false⟩,
       ⟨some nm, some 0, none, none, [], [], [], []⟩, a) := by
  have hstart := atLines_rnext a hat (by simp [isScError])
  unfold processClient
  rw [hstart]
  simp only [clientStartName]
  rw [show ({ createClientResults with name := some nm } : CR) =
    ⟨some nm, none, none, none, [], [], [], []⟩ from rfl]
  rw [processClientSetup_at_sessionStart (atLines_after (Line.clientStart nm)
    (Line.sessionStart :: Line.testFinished :: Line.clientEnd :: tl) r₂ b)]
  have hpl1 : PlainSession [Line.sessionStart] := by
    intro l hl
    simp only [List.mem_singleton] at hl
    subst hl
    exact ⟨rfl, rfl, rfl, rfl⟩
  have hses := processClientSession_plain_finished
    (q := ⟨some nm, none, none, none, [], [], [], []⟩) (a := a) hpl1
    (atLines_requeued Line.sessionStart (Line.testFinished :: Line.clientEnd :: tl)
      r₂ (b + 1))
  simp only [List.nil_append]
  rw [hses]
  simp only [List.length_cons, List.length_nil]
  rw [processClientCleanup_at_clientEnd (atLines_after Line.testFinished
    (Line.clientEnd :: tl) r₂ (b + 1 + 1))]
  have harith : b + 1 + 1 + 1 = b + 3 := by omega
  rw [harith]
  simp [failuresOf, isTestFailure]

/-- An 11-line log in which both clients (`"a"`, then `"b"`) complete
normally with empty sessions. -/
def miniLog : List Line :=
  [.clientStart "a", .sessionStart, .testFinished, .clientEnd,
   .clientStart "b", .sessionStart, .testFinished, .clientEnd,
   .other, .totalPassed 0, .totalFailed 0]

def miniCR (nm : String) : CR := ⟨some nm, some 0, none, none, [], [], [], []⟩

def miniR : Results := ⟨[miniCR "a", miniCR "b"], none, some 0, some 0, []⟩

theorem miniLog_processLog :
    processLog (initCursor miniLog) createResults [] =
      (.ok (), ⟨[], 11, some (11, Line.totalFailed 0), false, true⟩, miniR, []) := by
  unfold processLog processClientR
  rw [processSteeplechaseSetup_at (show atLines (initCursor miniLog)
    (Line.clientStart "a" :: _) [] 1 from atLines_init miniLog)]
  simp only []
  rw [processClient_std (atLines_requeued (Line.clientStart "a") _ [] 1)]
  simp only []
  rw [processClient_std (atLines_after Line.clientEnd _ [] (1 + 3))]
  simp only []
  rw [processSteeplechaseCleanup_std
    (atLines_after Line.clientEnd _ [] (1 + 3 + 1 + 3)) (by simp [isScError])]
  rfl

theorem parse_two_clients_min_runtime_witness :
    ∃ c₁ a₁ c₂ cr₁ a₂ c₃ cr₂ a₃,
      processSteeplechaseSetup (initCursor miniLog) [] = (c₁, a₁) ∧
      processClient c₁ a₁ = (.ok (), c₂, cr₁, a₂) ∧
      processClient c₂ a₂ = (.ok (), c₃, cr₂, a₃) ∧
      miniR.clients = [cr₁, cr₂] ∧
      parse miniLog [] =
        some ({ miniR with
                sessionRuntime := pyMin cr₁.sessionRuntime cr₂.sessionRuntime
                anomalies := [] }, []) :=
  parse_two_clients_min_runtime miniLog_processLog

/-!
## Anomaly accumulation

`Grows x y` says the anomaly list `y` extends `x` at the tail: the module
global `_anomalies` is only ever appended to, by `log_anomaly`, and no
function of the module removes or clears entries.
-/

def Grows (x y : Anoms) : Prop := ∃ t, y = x ++ t

theorem grows_refl (x : Anoms) : Grows x x := ⟨[], by simp⟩

theorem grows_trans {x y z : Anoms} (h1 : Grows x y) (h2 : Grows y z) : Grows x z := by
  obtain ⟨t1, rfl⟩ := h1
  obtain ⟨t2, rfl⟩ := h2
  exact ⟨t1 ++ t2, by simp⟩

theorem grows_mem {x y : Anoms} (h : Grows x y) : ∀ v ∈ x, v ∈ y := by
  obtain ⟨t, rfl⟩ := h
  intro v hv
  exact List.mem_append_left t hv

theorem logAnomaly_grows (n : Nat) (m : Msg) (x : Anoms) : Grows x (logAnomaly n m x) :=
  ⟨[(n, m)], rfl⟩

theorem checkForAnomalies_grows (n : Nat) (l : Line) (x : Anoms) :
    Grows x (checkForAnomalies n l x) := by
  unfold checkForAnomalies
  split
  · exact logAnomaly_grows n (.rawLine l) x
  · exact grows_refl x

theorem rnext_grows {c : Cursor} {x : Anoms} {o : Except Exc (Nat × Line)}
    {c' : Cursor} {y : Anoms} (h : rnext c x = (o, c', y)) : Grows x y := by
  unfold rnext at h
  repeat' split at h
  all_goals
    (simp only [Prod.mk.injEq] at h
     obtain ⟨-, -, ha⟩ := h
     subst ha
     first
       | exact grows_refl x
       | exact checkForAnomalies_grows _ _ x)

theorem statsDividerLoop_grows {c : Cursor} {x : Anoms} {i : Bool}
    {o : Except Exc Unit} {c' : Cursor} {y : Anoms}
    (h : statsDividerLoop c x i = (o, c', y)) : Grows x y := by
  induction c, x, i using statsDividerLoop.induct with
  | case1 c a b e c₁ a₁ hr =>
      rw [statsDividerLoop, hr] at h
      simp only [Prod.mk.injEq] at h
      obtain ⟨-, -, ha⟩ := h
      subst ha
      exact rnext_grows hr
  | case2 c a b n l c₁ a₁ hr hbl ih =>
      rw [statsDividerLoop, hr] at h
      simp only [hbl, if_true] at h
      exact grows_trans (rnext_grows hr) (ih h)
  | case3 c a n l c₁ a₁ hr hbl =>
      rw [statsDividerLoop, hr] at h
      simp only [hbl, Bool.false_eq_true, if_false, if_true, reduceIte,
        Prod.mk.injEq] at h
      obtain ⟨-, -, ha⟩ := h
      subst ha
      exact rnext_grows hr
  | case4 c a b n l c₁ a₁ hr hbl hib ih =>
      rw [statsDividerLoop, hr] at h
      simp only [hbl, hib, if_false, Bool.false_eq_true, reduceIte] at h
      exact grows_trans (rnext_grows hr) (ih h)

theorem statsTestLoop_grows {c : Cursor} {x : Anoms} {fs : List (Nat × Line)}
    {o : Except Exc (List (Nat × Line))} {c' : Cursor} {y : Anoms}
    (h : statsTestLoop c x fs = (o, c', y)) : Grows x y := by
  induction c, x, fs using statsTestLoop.induct with
  | case1 c a fs e c₁ a₁ hr =>
      rw [statsTestLoop, hr] at h
      simp only [Prod.mk.injEq] at h
      obtain ⟨-, -, ha⟩ := h
      subst ha
      exact rnext_grows hr
  | case2 c a fs n l c₁ a₁ hr act hact ih =>
      rw [statsTestLoop, hr] at h
      simp only [hact] at h
      exact grows_trans (rnext_grows hr) (ih h)
  | case3 c a fs n l c₁ a₁ hr hact =>
      rw [statsTestLoop, hr] at h
      simp only [hact, Prod.mk.injEq] at h
      obtain ⟨-, -, ha⟩ := h
      subst ha
      exact rnext_grows hr

theorem processStatsBlock_grows {c : Cursor} {cr : CR} {x : Anoms} {j : Bool}
    {o : Except Exc (Int × Bool)} {c' : Cursor} {cr' : CR} {y : Anoms}
    (h : processStatsBlock c cr x j = (o, c', cr', y)) : Grows x y := by
  unfold processStatsBlock at h
  rcases hr : rnext c x with ⟨o1, c₁, a₁⟩
  rcases o1 with e | ⟨n, l⟩ <;> simp only [hr] at h
  · simp only [Prod.mk.injEq] at h
    obtain ⟨-, -, -, ha⟩ := h
    subst ha
    exact rnext_grows hr
  · rcases hts : statsTs l with _ | ts <;> simp only [hts] at h
    · simp only [Prod.mk.injEq] at h
      obtain ⟨-, -, -, ha⟩ := h
      subst ha
      exact rnext_grows hr
    · rcases hd : statsDividerLoop c₁ a₁ false with ⟨o2, c₂, a₂⟩
      rcases o2 with e | u2 <;> simp only [hd] at h
      · simp only [Prod.mk.injEq] at h
        obtain ⟨-, -, -, ha⟩ := h
        subst ha
        exact grows_trans (rnext_grows hr) (statsDividerLoop_grows hd)
      · rcases ht : statsTestLoop c₂ a₂ [] with ⟨o3, c₃, a₃⟩
        rcases o3 with e | fails <;> simp only [ht] at h
        · simp only [Prod.mk.injEq] at h
          obtain ⟨-, -, -, ha⟩ := h
          subst ha
          exact grows_trans (rnext_grows hr)
            (grows_trans (statsDividerLoop_grows hd) (statsTestLoop_grows ht))
        · simp only [Prod.mk.injEq] at h
          obtain ⟨-, -, -, ha⟩ := h
          subst ha
          exact grows_trans (rnext_grows hr)
            (grows_trans (statsDividerLoop_grows hd) (statsTestLoop_grows ht))

theorem processClientSetup_grows {c : Cursor} {cr : CR} {x : Anoms}
    {o : Except Exc Unit} {c' : Cursor} {cr' : CR} {y : Anoms}
    (h : processClientSetup c cr x = (o, c', cr', y)) : Grows x y := by
  induction c, cr, x using processClientSetup.induct with
  | case1 c cr a e c₁ a₁ hr =>
      rw [processClientSetup, hr] at h
      simp only [Prod.mk.injEq] at h
      obtain ⟨-, -, -, ha⟩ := h
      subst ha
      exact rnext_grows hr
  | case2 c cr a n l c₁ a₁ hr hce =>
      rw [processClientSetup, hr] at h
      simp only [if_pos hce, Prod.mk.injEq] at h
      obtain ⟨-, -, -, ha⟩ := h
      subst ha
      exact rnext_grows hr
  | case3 c cr a n l c₁ a₁ hr hce hss =>
      rw [processClientSetup, hr] at h
      simp only [if_neg hce, if_pos hss, Prod.mk.injEq] at h
      obtain ⟨-, -, -, ha⟩ := h
      subst ha
      exact rnext_grows hr
  | case4 c cr a n l c₁ a₁ hr hce w hss ih =>
      have hw : w = (if isTestFailure l then
        { cr with setupFailures := cr.setupFailures ++ [(n, l)] } else cr) := rfl
      rw [processClientSetup, hr] at h
      simp only [if_neg hce, if_neg hss] at h
      rw [← hw] at h
      exact grows_trans (rnext_grows hr) (ih h)

theorem sessionLoop_grows {c : Cursor} {cr : CR} {x : Anoms} {st : SessSt}
    {o : Except Exc Unit} {c' : Cursor} {cr' : CR} {y : Anoms} {t' : SessSt}
    (h : sessionLoop c cr x st = (o, c', cr', y, t')) : Grows x y := by
  induction c, cr, x, st using sessionLoop.induct with
  | case1 c cr a st e c₁ a₁ hr =>
      rw [sessionLoop, hr] at h
      simp only [Prod.mk.injEq] at h
      obtain ⟨-, -, -, ha, -⟩ := h
      subst ha
      exact rnext_grows hr
  | case2 c cr a st n l c₁ a₁ hr hce =>
      rw [sessionLoop, hr] at h
      simp only [if_pos hce, Prod.mk.injEq] at h
      obtain ⟨-, -, -, ha, -⟩ := h
      subst ha
      exact rnext_grows hr
  | case3 c cr a st n l c₁ a₁ hr hce htf =>
      rw [sessionLoop, hr] at h
      simp only [if_neg hce, if_pos htf, Prod.mk.injEq] at h
      obtain ⟨-, -, -, ha, -⟩ := h
      subst ha
      exact rnext_grows hr
  | case4 c cr a st n l c₁ a₁ hr hce htf hsh w e c₂ cr₂ a₂ hpsb =>
      have hw : w = { cr with blocks := cr.blocks.map (· + 1) } := rfl
      rw [hw] at hpsb
      rw [sessionLoop, hr] at h
      simp only [if_neg hce, if_neg htf, if_pos hsh] at h
      rw [hpsb] at h
      simp only [Prod.mk.injEq] at h
      obtain ⟨-, -, -, ha, -⟩ := h
      subst ha
      exact grows_trans (rnext_grows hr) (processStatsBlock_grows hpsb)
  | case5 c cr a st n l c₁ a₁ hr hce htf hsh w ts passed c₂ cr₂ a₂ hpsb ih =>
      have hw : w = { cr with blocks := cr.blocks.map (· + 1) } := rfl
      rw [hw] at hpsb
      rw [sessionLoop, hr] at h
      simp only [if_neg hce, if_neg htf, if_pos hsh] at h
      rw [hpsb] at h
      simp only [] at h
      exact grows_trans (rnext_grows hr)
        (grows_trans (processStatsBlock_grows hpsb) (ih h))
  | case6 c cr a st n l c₁ a₁ hr hce htf hsh w ih =>
      have hw : w = (if isTestFailure l then
        { cr with sessionFailures := cr.sessionFailures ++ [(n, l)] } else cr) := rfl
      rw [sessionLoop, hr] at h
      simp only [if_neg hce, if_neg htf, if_neg hsh] at h
      rw [← hw] at h
      exact grows_trans (rnext_grows hr) (ih h)

theorem processClientCleanup_grows {c : Cursor} {cr : CR} {x : Anoms}
    {o : Except Exc Unit} {c' : Cursor} {cr' : CR} {y : Anoms}
    (h : processClientCleanup c cr x = (o, c', cr', y)) : Grows x y := by
  induction c, cr, x using processClientCleanup.induct with
  | case1 c cr a e c₁ a₁ hr =>
      rw [processClientCleanup, hr] at h
      simp only [Prod.mk.injEq] at h
      obtain ⟨-, -, -, ha⟩ := h
      subst ha
      exact rnext_grows hr
  | case2 c cr a n l c₁ a₁ hr hce =>
      rw [processClientCleanup, hr] at h
      simp only [if_pos hce, Prod.mk.injEq] at h
      obtain ⟨-, -, -, ha⟩ := h
      subst ha
      exact rnext_grows hr
  | case3 c cr a n l c₁ a₁ hr hce hsh w e c₂ cr₂ a₂ hpsb =>
      have hw : w = logAnomaly n (Msg.statsAfterFinished cr.name) a₁ := rfl
      rw [hw] at hpsb
      rw [processClientCleanup, hr] at h
      simp only [if_neg hce, if_pos hsh] at h
      rw [hpsb] at h
      simp only [Prod.mk.injEq] at h
      obtain ⟨-, -, -, ha⟩ := h
      subst ha
      exact grows_trans (rnext_grows hr)
        (grows_trans (logAnomaly_grows n (Msg.statsAfterFinished cr.name) a₁)
          (processStatsBlock_grows hpsb))
  | case4 c cr a n l c₁ a₁ hr hce hsh w v c₂ cr₂ a₂ hpsb ih =>
      have hw : w = logAnomaly n (Msg.statsAfterFinished cr.name) a₁ := rfl
      rw [hw] at hpsb
      rw [processClientCleanup, hr] at h
      simp only [if_neg hce, if_pos hsh] at h
      rw [hpsb] at h
      simp only [] at h
      exact grows_trans (rnext_grows hr)
        (grows_trans (logAnomaly_grows n (Msg.statsAfterFinished cr.name) a₁)
          (grows_trans (processStatsBlock_grows hpsb) (ih h)))
  | case5 c cr a n l c₁ a₁ hr hce hsh w ih =>
      have hw : w = (if isTestFailure l then
        { cr with cleanupFailures := cr.cleanupFailures ++ [(n, l)] } else cr) := rfl
      rw [processClientCleanup, hr] at h
      simp only [if_neg hce, if_neg hsh] at h
      rw [← hw] at h
      exact grows_trans (rnext_grows hr) (ih h)

theorem processClientSession_grows {c : Cursor} {cr : CR} {x : Anoms}
    {o : Except Exc Unit} {c' : Cursor} {cr' : CR} {y : Anoms}
    (h : processClientSession c cr x = (o, c', cr', y)) : Grows x y := by
  unfold processClientSession at h
  rcases hs : sessionLoop c { cr with blocks := some 0 } x initSessSt with
    ⟨o1, c₁, cr₁, a₁, st₁⟩
  simp only [hs, Prod.mk.injEq] at h
  obtain ⟨-, -, -, ha⟩ := h
  subst ha
  exact sessionLoop_grows hs

theorem processClient_grows {c : Cursor} {x : Anoms}
    {o : Except Exc Unit} {c' : Cursor} {cr' : CR} {y : Anoms}
    (h : processClient c x = (o, c', cr', y)) : Grows x y := by
  unfold processClient at h
  rcases hr : rnext c x with ⟨o1, c₁, a₁⟩
  rcases o1 with e | ⟨n, l⟩ <;> simp only [hr] at h
  · simp only [Prod.mk.injEq] at h
    obtain ⟨-, -, -, ha⟩ := h
    subst ha
    exact rnext_grows hr
  · rcases hn : clientStartName l with _ | nm <;> simp only [hn] at h
    · simp only [Prod.mk.injEq] at h
      obtain ⟨-, -, -, ha⟩ := h
      subst ha
      exact rnext_grows hr
    · rcases hsu : processClientSetup c₁ { createClientResults with name := some nm } a₁
        with ⟨o2, c₂, cr₂, a₂⟩
      have g2 : Grows x a₂ :=
        grows_trans (rnext_grows hr) (processClientSetup_grows hsu)
      rcases o2 with e2 | u2
      · rcases e2 with k | k | _ | _ <;> simp only [hsu, Prod.mk.injEq] at h <;>
          (obtain ⟨-, -, -, ha⟩ := h
           subst ha
           first
             | exact grows_trans g2 (logAnomaly_grows _ _ _)
             | exact g2)
      · simp only [hsu] at h
        rcases hse : processClientSession c₂ cr₂ a₂ with ⟨o3, c₃, cr₃, a₃⟩
        have g3 : Grows x a₃ := grows_trans g2 (processClientSession_grows hse)
        rcases o3 with e3 | u3
        · rcases e3 with k | k | _ | _ <;> simp only [hse, Prod.mk.injEq] at h <;>
            (obtain ⟨-, -, -, ha⟩ := h
             subst ha
             first
               | exact grows_trans g3 (logAnomaly_grows _ _ _)
               | exact g3)
        · simp only [hse] at h
          rcases hcl : processClientCleanup c₃ cr₃ a₃ with ⟨o4, c₄, cr₄, a₄⟩
          have g4 : Grows x a₄ := grows_trans g3 (processClientCleanup_grows hcl)
          rcases o4 with e4 | u4
          · rcases e4 with k | k | _ | _ <;> simp only [hcl, Prod.mk.injEq] at h <;>
              (obtain ⟨-, -, -, ha⟩ := h
               subst ha
               first
                 | exact grows_trans g4 (logAnomaly_grows _ _ _)
                 | exact g4)
          · simp only [hcl, Prod.mk.injEq] at h
            obtain ⟨-, -, -, ha⟩ := h
            subst ha
            exact g4

theorem processClientR_grows {c : Cursor} {r : Results} {x : Anoms}
    {o : Except Exc Unit} {c' : Cursor} {r' : Results} {y : Anoms}
    (h : processClientR c r x = (o, c', r', y)) : Grows x y := by
  unfold processClientR at h
  rcases hc : processClient c x with ⟨o1, c₁, cr₁, a₁⟩
  simp only [hc, Prod.mk.injEq] at h
  obtain ⟨-, -, -, ha⟩ := h
  subst ha
  exact processClient_grows hc

theorem processSteeplechaseSetup_grows {c : Cursor} {x : Anoms} {c' : Cursor}
    {y : Anoms} (h : processSteeplechaseSetup c x = (c', y)) : Grows x y := by
  induction c, x using processSteeplechaseSetup.induct with
  | case1 c a e c₁ a₁ hr =>
      rw [processSteeplechaseSetup, hr] at h
      simp only [Prod.mk.injEq] at h
      obtain ⟨-, ha⟩ := h
      subst ha
      exact rnext_grows hr
  | case2 c a n l c₁ a₁ hr hcs =>
      rw [processSteeplechaseSetup, hr] at h
      simp only [if_pos hcs, Prod.mk.injEq] at h
      obtain ⟨-, ha⟩ := h
      subst ha
      exact rnext_grows hr
  | case3 c a n l c₁ a₁ hr hcs ih =>
      rw [processSteeplechaseSetup, hr] at h
      simp only [if_neg hcs] at h
      exact grows_trans (rnext_grows hr) (ih h)

theorem drainLoop_grows {c : Cursor} {x : Anoms} {c' : Cursor} {y : Anoms}
    (h : drainLoop c x = (c', y)) : Grows x y := by
  induction c, x using drainLoop.induct with
  | case1 c a e c₁ a₁ hr =>
      rw [drainLoop, hr] at h
      simp only [Prod.mk.injEq] at h
      obtain ⟨-, ha⟩ := h
      subst ha
      exact rnext_grows hr
  | case2 c a p c₁ a₁ hr ih =>
      rw [drainLoop, hr] at h
      exact grows_trans (rnext_grows hr) (ih h)

theorem processSteeplechaseCleanup_grows {c : Cursor} {r : Results} {x : Anoms}
    {o : Except Exc Unit} {c' : Cursor} {r' : Results} {y : Anoms}
    (h : processSteeplechaseCleanup c r x = (o, c', r', y)) : Grows x y := by
  unfold processSteeplechaseCleanup at h
  rcases h1 : rnext c x with ⟨o1, c₁, a₁⟩
  rcases o1 with e | p1 <;> simp only [h1] at h
  · simp only [Prod.mk.injEq] at h
    obtain ⟨-, -, -, ha⟩ := h
    subst ha
    exact rnext_grows h1
  · rcases h2 : rnext c₁ a₁ with ⟨o2, c₂, a₂⟩
    rcases o2 with e | ⟨n2, l2⟩ <;> simp only [h2] at h
    · simp only [Prod.mk.injEq] at h
      obtain ⟨-, -, -, ha⟩ := h
      subst ha
      exact grows_trans (rnext_grows h1) (rnext_grows h2)
    · rcases hp : totalPassedVal l2 with _ | p <;> simp only [hp] at h
      · simp only [Prod.mk.injEq] at h
        obtain ⟨-, -, -, ha⟩ := h
        subst ha
        exact grows_trans (rnext_grows h1) (rnext_grows h2)
      · rcases h3 : rnext c₂ a₂ with ⟨o3, c₃, a₃⟩
        rcases o3 with e | ⟨n3, l3⟩ <;> simp only [h3] at h
        · simp only [Prod.mk.injEq] at h
          obtain ⟨-, -, -, ha⟩ := h
          subst ha
          exact grows_trans (rnext_grows h1)
            (grows_trans (rnext_grows h2) (rnext_grows h3))
        · rcases hf : totalFailedVal l3 with _ | f <;> simp only [hf] at h
          · simp only [Prod.mk.injEq] at h
            obtain ⟨-, -, -, ha⟩ := h
            subst ha
            exact grows_trans (rnext_grows h1)
              (grows_trans (rnext_grows h2) (rnext_grows h3))
          · rcases hd : drainLoop c₃ a₃ with ⟨c₄, a₄⟩
            simp only [hd, Prod.mk.injEq] at h
            obtain ⟨-, -, -, ha⟩ := h
            subst ha
            exact grows_trans (rnext_grows h1)
              (grows_trans (rnext_grows h2)
                (grows_trans (rnext_grows h3) (drainLoop_grows hd)))

theorem processLog_grows {c : Cursor} {r : Results} {x : Anoms}
    {o : Except Exc Unit} {c' : Cursor} {r' : Results} {y : Anoms}
    (h : processLog c r x = (o, c', r', y)) : Grows x y := by
  unfold processLog at h
  rcases hs : processSteeplechaseSetup c x with ⟨c₁, a₁⟩
  simp only [hs] at h
  rcases h1 : processClientR c₁ r a₁ with ⟨o1, c₂, r₂, a₂⟩
  have g2 : Grows x a₂ :=
    grows_trans (processSteeplechaseSetup_grows hs) (processClientR_grows h1)
  rcases o1 with e | u1 <;> simp only [h1] at h
  · simp only [Prod.mk.injEq] at h
    obtain ⟨-, -, -, ha⟩ := h
    subst ha
    exact g2
  · rcases h2 : processClientR c₂ r₂ a₂ with ⟨o2, c₃, r₃, a₃⟩
    have g3 : Grows x a₃ := grows_trans g2 (processClientR_grows h2)
    rcases o2 with e | u2 <;> simp only [h2] at h
    · simp only [Prod.mk.injEq] at h
      obtain ⟨-, -, -, ha⟩ := h
      subst ha
      exact g3
    · exact grows_trans g3 (processSteeplechaseCleanup_grows h)

/-- A returned parse extends the incoming anomaly accumulator and returns it
both as the second component and aliased in the results record. -/
theorem parse_grows {log : List Line} {x : Anoms} {r : Results} {y : Anoms}
    (h : parse log x = some (r, y)) : Grows x y ∧ r.anomalies = y := by
  unfold parse at h
  rcases hp : processLog (initCursor log) createResults x with ⟨o, c₁, r₁, a₁⟩
  have g1 : Grows x a₁ := processLog_grows hp
  simp only [hp] at h
  rcases o with e | u
  · rcases e with k | k | _ | _ <;> simp only at h
    · exact absurd h (by simp)
    · rcases hg0 : r₁.clients.get? 0 with _ | r0 <;> simp only [hg0] at h
      · exact absurd h (by simp)
      · rcases hg1 : r₁.clients.get? 1 with _ | r1 <;> simp only [hg1] at h
        · exact absurd h (by simp)
        · simp only [Option.some.injEq, Prod.mk.injEq] at h
          obtain ⟨hres, ha⟩ := h
          subst ha
          refine ⟨grows_trans g1 (logAnomaly_grows k .unexpectedEOF a₁), ?_⟩
          rw [← hres]
    · exact absurd h (by simp)
    · exact absurd h (by simp)
  · rcases hg0 : r₁.clients.get? 0 with _ | r0 <;> simp only [hg0] at h
    · exact absurd h (by simp)
    · rcases hg1 : r₁.clients.get? 1 with _ | r1 <;> simp only [hg1] at h
      · exact absurd h (by simp)
      · simp only [Option.some.injEq, Prod.mk.injEq] at h
        obtain ⟨hres, ha⟩ := h
        subst ha
        exact ⟨g1, by rw [← hres]⟩

/-- **C10.**  The anomaly accumulator is module-level state that `parse`
never clears: each returned results record aliases the accumulator in its
`anomalies` field, one parse only ever appends to the accumulator, and a
second parse in the same process returns a results record whose `anomalies`
field still contains every anomaly recorded during the first parse. -/
theorem anomalies_accumulate_across_parses {g₁ g₂ : List Line}
    {a₀ a₁ a₂ : Anoms} {r₁ r₂ : Results}
    (h1 : parse g₁ a₀ = some (r₁, a₁)) (h2 : parse g₂ a₁ = some (r₂, a₂)) :
    r₁.anomalies = a₁ ∧ r₂.anomalies = a₂ ∧
    (∃ t, a₁ = a₀ ++ t) ∧ (∃ t, a₂ = a₁ ++ t) ∧
    (∀ v ∈ r₁.anomalies, v ∈ r₂.anomalies) := by
  obtain ⟨g1, e1⟩ := parse_grows h1
  obtain ⟨g2, e2⟩ := parse_grows h2
  refine ⟨e1, e2, g1, g2, ?_⟩
  rw [e1, e2]
  exact grows_mem g2

/-- `miniLog` preceded by one harness-error line, which the reader logs as an
anomaly while the setup loop scans past it. -/
def scLog : List Line := Line.scError :: miniLog

theorem scLog_processLog (x : Anoms) :
    processLog (initCursor scLog) createResults x =
      (.ok (), ⟨[], 12, some (12, Line.totalFailed 0), false, true⟩, miniR,
       x ++ [(1, Msg.rawLine Line.scError)]) := by
  unfold processLog processClientR
  rw [processSteeplechaseSetup]
  rw [show rnext (initCursor scLog) x = (.ok (1, Line.scError),
      ⟨miniLog, 1, some (1, Line.scError), false, false⟩,
      x ++ [(1, Msg.rawLine Line.scError)])
    from by simp [initCursor, scLog, rnext, checkForAnomalies, isScError, logAnomaly]]
  simp only [isClientStart, Bool.false_eq_true, if_false, reduceIte]
  rw [processSteeplechaseSetup_at
    (show atLines ⟨miniLog, 1, some (1, Line.scError), false, false⟩
      (Line.clientStart "a" :: Line.sessionStart :: Line.testFinished :: Line.clientEnd ::
       Line.clientStart "b" :: Line.sessionStart :: Line.testFinished :: Line.clientEnd ::
       Line.other :: Line.totalPassed 0 :: Line.totalFailed 0 :: []) [] (1 + 1)
     from ⟨rfl, Or.inl ⟨rfl, by simp [miniLog], rfl⟩⟩)]
  simp only []
  rw [processClient_std (atLines_requeued (Line.clientStart "a") _ [] (1 + 1))]
  simp only []
  rw [processClient_std (atLines_after Line.clientEnd _ [] (1 + 1 + 3))]
  simp only []
  rw [processSteeplechaseCleanup_std
    (atLines_after Line.clientEnd _ [] (1 + 1 + 3 + 1 + 3)) (by simp [isScError])]
  rfl

theorem parse_scLog (x : Anoms) :
    parse scLog x =
      some (⟨[miniCR "a", miniCR "b"], none, some 0, some 0,
             x ++ [(1, Msg.rawLine Line.scError)]⟩,
            x ++ [(1, Msg.rawLine Line.scError)]) := by
  unfold parse
  rw [scLog_processLog x]
  simp [miniR, miniCR, pyMin]

theorem anomalies_accumulate_across_parses_witness :
    (⟨[miniCR "a", miniCR "b"], none, some 0, some 0,
      ([] : Anoms) ++ [(1, Msg.rawLine Line.scError)]⟩ : Results).anomalies =
        ([] : Anoms) ++ [(1, Msg.rawLine Line.scError)] ∧
    (⟨[miniCR "a", miniCR "b"], none, some 0, some 0,
      (([] : Anoms) ++ [(1, Msg.rawLine Line.scError)]) ++
        [(1, Msg.rawLine Line.scError)]⟩ : Results).anomalies =
        (([] : Anoms) ++ [(1, Msg.rawLine Line.scError)]) ++
          [(1, Msg.rawLine Line.scError)] ∧
    (∃ t, ([] : Anoms) ++ [(1, Msg.rawLine Line.scError)] = ([] : Anoms) ++ t) ∧
    (∃ t, (([] : Anoms) ++ [(1, Msg.rawLine Line.scError)]) ++
        [(1, Msg.rawLine Line.scError)] =
      (([] : Anoms) ++ [(1, Msg.rawLine Line.scError)]) ++ t) ∧
    (∀ v ∈ (⟨[miniCR "a", miniCR "b"], none, some 0, some 0,
        ([] : Anoms) ++ [(1, Msg.rawLine Line.scError)]⟩ : Results).anomalies,
      v ∈ (⟨[miniCR "a", miniCR "b"], none, some 0, some 0,
        (([] : Anoms) ++ [(1, Msg.rawLine Line.scError)]) ++
          [(1, Msg.rawLine Line.scError)]⟩ : Results).anomalies) :=
  anomalies_accumulate_across_parses (parse_scLog [])
    (parse_scLog (([] : Anoms) ++ [(1, Msg.rawLine Line.scError)]))

/-- **C9.**  Requeue idempotence.  After any successful delivery, requeuing
and immediately requesting the next line re-delivers the identical
`(line number, line)` pair, returns the reader to the very same state, and
performs no fresh anomaly scan; `requeue` itself never changes the line
number, a fresh (non-replay) delivery advances the 1-based counter by exactly
one, a replayed delivery re-serves the stored pair without advancing the
counter, and a fresh reader starts at counter 0 so its first line is
numbered 1. -/
theorem requeue_idempotent :
    (∀ (c : Cursor) (a x : Anoms) (n : Nat) (l : Line) (c₁ : Cursor) (a₁ : Anoms),
      rnext c a = (.ok (n, l), c₁, a₁) →
      rnext (requeue c₁) x = (.ok (n, l), c₁, x)) ∧
    (∀ c : Cursor, (requeue c).number = c.number) ∧
    (∀ (c : Cursor) (a : Anoms) (n : Nat) (l : Line) (c₁ : Cursor) (a₁ : Anoms),
      rnext c a = (.ok (n, l), c₁, a₁) → c.pend = false →
      n = c.number + 1 ∧ c₁.number = n) ∧
    (∀ (c : Cursor) (a : Anoms) (n : Nat) (l : Line) (c₁ : Cursor) (a₁ : Anoms)
      (m : Nat) (w : Line),
      rnext c a = (.ok (n, l), c₁, a₁) → c.pend = true → c.last? = some (m, w) →
      n = m ∧ c₁.number = c.number) ∧
    (∀ log : List Line, (initCursor log).number = 0) := by
  refine ⟨?_, fun c => rfl, ?_, ?_, fun log => rfl⟩
  · intro c a x n l c₁ a₁ h
    obtain ⟨hp, hcl, hl⟩ := rnext_ok_state h
    rcases c₁ with ⟨rest, num, w, p, cl⟩
    simp only at hp hcl hl
    subst hp
    subst hcl
    subst hl
    simp [rnext, requeue]
  · intro c a n l c₁ a₁ h hp
    exact rnext_fresh_number h hp
  · intro c a n l c₁ a₁ m w h hp hl
    exact rnext_replay_number h hp hl

theorem client_early_exit_recovers_witness :
    ∃ cr', processClient (initCursor [Line.clientStart "x", Line.clientEnd]) [] =
        (.ok (), ⟨[], 2, some (2, Line.clientEnd), false, false⟩, cr',
         [(2, Msg.exitedEarly "x")]) ∧ cr'.name = some "x" := by
  have h := @client_early_exit_recovers "x" [] [] []
    (initCursor [Line.clientStart "x", Line.clientEnd]) [] 1
    (by exact atLines_init [Line.clientStart "x", Line.clientEnd]) (by simp)
  simpa using h

/-- A five-line log that is one complete stats block: header, divider blank,
one passing and one failing test result, and a non-matching stopper. -/
def blockLog : List Line :=
  [Line.statsHeader 5, Line.blank, Line.testResult "test_pass",
   Line.testResult "test_fail", Line.other]

theorem stats_block_test_loop_spec_witness :
    ∃ cE crE,
      processStatsBlock (initCursor blockLog) createClientResults [] false =
        (.ok (5, false), cE, crE, []) ∧
      rnext cE [] = (.ok (5, Line.other), { cE with pend := false }, []) ∧
      ((false : Bool) = true ↔ ∀ x ∈ ["test_pass", "test_fail"], x = "test_pass") ∧
      (∀ n l, (n, l) ∈ actFails 3 ["test_pass", "test_fail"] ↔
        ∃ i act, ["test_pass", "test_fail"].get? i = some act ∧ act ≠ "test_pass" ∧
          n = 3 + i ∧ l = Line.testResult act) := by
  have h := @stats_block_test_loop_spec [] [Line.blank] ["test_pass", "test_fail"]
    (by simp) (by simp) (by simp) 5 Line.other [] [] (initCursor blockLog)
    createClientResults [] false 1 (by exact atLines_init blockLog) rfl rfl rfl
  simpa [actFails] using h

/-- **C2.** (amended)  For a session of standard-shape stats blocks with
chronologically ordered timestamps, starting from a fresh client record, the
in-loop longest-pass fold computes exactly the maximum timestamp delta across
the maximal runs of consecutive passing blocks — but the `finally` block
stores it on the client record only when it is nonzero: Python's
`if longest_pass_delta:` treats the zero timedelta as falsy, so a recorded
zero-length longest pass is silently dropped. -/
theorem longest_pass_eq_max_run_delta_when_nonzero {bs : List (Int × Bool)}
    {term : Line} {tl r₂ : List Line} {c : Cursor} {cr : CR} {a : Anoms} {b : Nat}
    (hat : atLines c (stdLines bs ++ term :: tl) r₂ b)
    (hterm : term = Line.testFinished ∨ term = Line.clientEnd)
    (hmono : List.Pairwise (· ≤ ·) (bs.map Prod.fst))
    (hcr : cr.longestPass = none) :
    (sessFold initSessSt bs).longest = maxRunDelta bs ∧
    (processClientSession c cr a).2.2.1.longestPass =
      (match maxRunDelta bs with
        | some d => if d = 0 then none else some d
        | none => none) := by
  have hlp : (sessFold initSessSt bs).longest = maxRunDelta bs := by
    calc (sessFold initSessSt bs).longest
        = ((sessFold initSessSt bs).passStart, (sessFold initSessSt bs).longest).2 := rfl
      _ = (bs.foldl lpStep (initSessSt.passStart, initSessSt.longest)).2 := by
            rw [sessFold_lp]
      _ = (bs.foldl lpStep (none, none)).2 := rfl
      _ = maxRunDelta bs := lpFinal_eq_maxRunDelta bs hmono
  refine ⟨hlp, ?_⟩
  rw [processClientSession_std hat hterm]
  simp only []
  rw [sessFinalize_longestPass, hlp]
  cases hmd : maxRunDelta bs <;> simp [hcr]

/-- A session of two passing blocks with equal timestamps: the maximal-run
delta (and the recorded in-loop longest pass) is zero, yet the returned
client record reports no longest pass at all. -/
theorem longest_pass_zero_delta_not_reported :
    maxRunDelta [((50 : Int), true), (50, true)] = some 0 ∧
    (sessFold initSessSt [((50 : Int), true), (50, true)]).longest = some 0 ∧
    (processClientSession
        (initCursor (stdLines [((50 : Int), true), (50, true)] ++ [Line.testFinished]))
        createClientResults []).2.2.1.longestPass = none := by
  refine ⟨by decide, by decide, ?_⟩
  rw [processClientSession_std
    (by exact atLines_init (stdLines [((50 : Int), true), (50, true)] ++ [Line.testFinished]))
    (Or.inl rfl)]
  decide

theorem longest_pass_eq_max_run_delta_when_nonzero_witness :
    (sessFold initSessSt [((3 : Int), true), (7, true)]).longest =
      maxRunDelta [((3 : Int), true), (7, true)] ∧
    (processClientSession
        (initCursor (stdLines [((3 : Int), true), (7, true)] ++ [Line.testFinished]))
        createClientResults []).2.2.1.longestPass =
      (match maxRunDelta [((3 : Int), true), (7, true)] with
        | some d => if d = 0 then none else some d
        | none => none) :=
  longest_pass_eq_max_run_delta_when_nonzero
    (by exact atLines_init (stdLines [((3 : Int), true), (7, true)] ++ [Line.testFinished]))
    (Or.inl rfl) (by decide) rfl

/-- **C4.** (amended)  Whether the session loop ends normally at
`Test finished` or in Premature Exit at `client end`, the very same `finally`
finalization is applied to the folded time-tracking state before the outcome
propagates: the session runtime is stored as last-minus-first whenever both a
first and a last block timestamp were seen, and a recorded longest-pass delta
is stored — except that a recorded zero delta is dropped by the falsy-zero
`if longest_pass_delta:` test. -/
theorem session_finalize_on_all_exits {bs : List (Int × Bool)} {term : Line}
    {tl r₂ : List Line} {c : Cursor} {cr : CR} {a : Anoms} {b : Nat}
    (hat : atLines c (stdLines bs ++ term :: tl) r₂ b)
    (hterm : term = Line.testFinished ∨ term = Line.clientEnd) :
    processClientSession c cr a =
      ((if term = Line.testFinished then Except.ok ()
        else Except.error (Exc.earlyExit (b + 3 * bs.length))),
       ⟨tl ++ r₂, b + 3 * bs.length, some (b + 3 * bs.length, term), false, false⟩,
       sessFinalize
         { cr with
           blocks := some bs.length
           failedBlocks := cr.failedBlocks ++ stdFailedBlocks b bs }
         (sessFold initSessSt bs),
       a) ∧
    (∀ (q : CR) (st : SessSt), (sessFinalize q st).sessionRuntime =
      (match st.lastDt, st.firstDt with
        | some lastD, some firstD => some (lastD - firstD)
        | _, _ => q.sessionRuntime)) ∧
    (∀ (q : CR) (st : SessSt), (sessFinalize q st).longestPass =
      (match st.longest with
        | some d => if d = 0 then q.longestPass else some d
        | none => q.longestPass)) ∧
    (sessFold initSessSt bs).firstDt = bs.head?.map Prod.fst ∧
    (sessFold initSessSt bs).lastDt = bs.getLast?.map Prod.fst := by
  refine ⟨processClientSession_std hat hterm, sessFinalize_runtime,
    sessFinalize_longestPass, ?_, ?_⟩
  · rw [sessFold_firstDt]
    rfl
  · rw [sessFold_lastDt]
    cases bs.getLast? <;> rfl

/-- A prematurely exiting session of two passing blocks with equal
timestamps: the loop has recorded a (zero) longest-pass delta, the runtime is
finalized while the Premature Exit is in flight, but the zero longest pass is
dropped rather than stored. -/
theorem session_finalize_zero_longest_dropped :
    (sessFold initSessSt [((77 : Int), true), (77, true)]).longest = some 0 ∧
    processClientSession
        (initCursor (stdLines [((77 : Int), true), (77, true)] ++ [Line.clientEnd]))
        createClientResults [] =
      (.error (.earlyExit 7), ⟨[], 7, some (7, Line.clientEnd), false, false⟩,
       { createClientResults with
         blocks := some 2
         sessionRuntime := some 0 }, []) := by
  refine ⟨by decide, ?_⟩
  rw [processClientSession_std
    (by exact atLines_init (stdLines [((77 : Int), true), (77, true)] ++ [Line.clientEnd]))
    (Or.inr rfl)]
  rfl

theorem session_finalize_on_all_exits_witness :
    (processClientSession
        (initCursor (stdLines [((3 : Int), true), (7, true)] ++ [Line.clientEnd]))
        createClientResults [] =
      ((if Line.clientEnd = Line.testFinished then Except.ok ()
        else Except.error (Exc.earlyExit (1 + 3 * [((3 : Int), true), (7, true)].length))),
       ⟨[] ++ [], 1 + 3 * [((3 : Int), true), (7, true)].length,
        some (1 + 3 * [((3 : Int), true), (7, true)].length, Line.clientEnd), false, false⟩,
       sessFinalize
         { createClientResults with
           blocks := some [((3 : Int), true), (7, true)].length
           failedBlocks := createClientResults.failedBlocks ++
             stdFailedBlocks 1 [((3 : Int), true), (7, true)] }
         (sessFold initSessSt [((3 : Int), true), (7, true)]),
       [])) ∧
    (∀ (q : CR) (st : SessSt), (sessFinalize q st).sessionRuntime =
      (match st.lastDt, st.firstDt with
        | some lastD, some firstD => some (lastD - firstD)
        | _, _ => q.sessionRuntime)) ∧
    (∀ (q : CR) (st : SessSt), (sessFinalize q st).longestPass =
      (match st.longest with
        | some d => if d = 0 then q.longestPass else some d
        | none => q.longestPass)) ∧
    (sessFold initSessSt [((3 : Int), true), (7, true)]).firstDt =
      [((3 : Int), true), (7, true)].head?.map Prod.fst ∧
    (sessFold initSessSt [((3 : Int), true), (7, true)]).lastDt =
      [((3 : Int), true), (7, true)].getLast?.map Prod.fst :=
  session_finalize_on_all_exits
    (by exact atLines_init (stdLines [((3 : Int), true), (7, true)] ++ [Line.clientEnd]))
    (Or.inr rfl)

/-- **C1.**  (refuting theorem)  A log truncated immediately after client 1's
`Run step: INTERVAL_COMMAND` line: the end-of-input is raised inside the
session loop and caught at the outermost level, but the runtime line
`min(results['clients'][0][...], results['clients'][1][...])` then indexes
`clients[1]` of a one-element list, so `parse` raises an uncaught `IndexError`
(modelled as `none`) instead of returning the partial results. -/
theorem steeple_truncated_log_crashes :
    parse [Line.clientStart "A", Line.sessionStart] [] = none := by
  simp [parse, processLog, processSteeplechaseSetup, processClientR, processClient,
    processClientSetup, processClientSession, sessionLoop, processClientCleanup,
    processSteeplechaseCleanup, drainLoop, rnext, requeue, initCursor, createResults,
    createClientResults, checkForAnomalies, isScError, isClientStart, clientStartName,
    isClientEnd, isSessionStart, isTestFinished, isStatsHeader, isTestFailure,
    isTestResult, resultAction, totalPassedVal, totalFailedVal, sessFinalize,
    initSessSt, logAnomaly]

/-- A setup phase containing the failing test-result line
`{"action":"test_fail"}`: its action differs from `test_pass`, yet nothing is
recorded into the setup failures, because the recording loops match the
`test failure` pattern (action exactly `test_unexpected_fail`), not the
failing-test-result predicate. -/
theorem setup_nonpass_result_not_recorded :
    processClientSetup (initCursor [Line.testResult "test_fail", Line.sessionStart])
        createClientResults [] =
      (.ok (), ⟨[], 2, some (2, Line.sessionStart), true, false⟩,
       createClientResults, []) ∧
    isTestResult (Line.testResult "test_fail") = true ∧
    resultAction (Line.testResult "test_fail") = some "test_fail" ∧
    "test_fail" ≠ "test_pass" ∧
    isTestFailure (Line.testResult "test_fail") = false := by
  refine ⟨?_, rfl, rfl, by decide, by decide⟩
  have hpl : PlainSetup [Line.testResult "test_fail"] := by
    intro l hl
    simp only [List.mem_singleton] at hl
    subst hl
    exact ⟨rfl, rfl, rfl⟩
  rw [processClientSetup_family hpl
    (by exact atLines_init [Line.testResult "test_fail", Line.sessionStart])]
  rfl

/-- **C7.** (amended)  Each phase loop records with its line number exactly
the lines matching the `test failure` pattern — a test-result line whose
action is the exact string `test_unexpected_fail` (the pattern ends in a
literal closing quote, so a word-character action matches only when it is
exactly `test_unexpected_fail`) — into the phase's failure list: a failing
test-result line with any other action, such as `test_fail` or the prefix
extension `test_unexpected_failure`, is NOT recorded.  The setup, session and
cleanup loops all use this same pattern, and the collected entries are
exactly the pattern-matching lines of the consumed segment. -/
theorem failure_recording_matches_failure_pattern :
    (∀ l : Line, isTestFailure l = true ↔ l = Line.testResult "test_unexpected_fail") ∧
    isTestFailure (Line.testResult "test_unexpected_failure") = false ∧
    isTestFailure (Line.testResult "test_fail") = false ∧
    (∀ (u w v : List Line) (c : Cursor) (q : CR) (x : Anoms) (b : Nat),
      PlainSetup u → atLines c (u ++ Line.sessionStart :: w) v b →
      processClientSetup c q x =
        (.ok (),
         ⟨w ++ v, b + u.length, some (b + u.length, Line.sessionStart), true, false⟩,
         { q with setupFailures := q.setupFailures ++ failuresOf b u }, x)) ∧
    (∀ (u w v : List Line) (c : Cursor) (q : CR) (x : Anoms) (b : Nat),
      PlainSession u → atLines c (u ++ Line.testFinished :: w) v b →
      processClientSession c q x =
        (.ok (),
         ⟨w ++ v, b + u.length, some (b + u.length, Line.testFinished), false, false⟩,
         { q with
           blocks := some 0
           sessionFailures := q.sessionFailures ++ failuresOf b u }, x)) ∧
    (∀ (u w v : List Line) (c : Cursor) (q : CR) (x : Anoms) (b : Nat),
      PlainCleanup u → atLines c (u ++ Line.clientEnd :: w) v b →
      processClientCleanup c q x =
        (.ok (),
         ⟨w ++ v, b + u.length, some (b + u.length, Line.clientEnd), false, false⟩,
         { q with cleanupFailures := q.cleanupFailures ++ failuresOf b u }, x)) ∧
    (∀ (ls : List Line) (b n : Nat) (l : Line),
      (n, l) ∈ failuresOf b ls ↔
        ∃ i y, ls.get? i = some y ∧ isTestFailure y = true ∧ n = b + i ∧ l = y) := by
  refine ⟨?_, by decide, by decide, ?_, ?_, ?_, failuresOf_mem⟩
  · intro l
    cases l <;> simp [isTestFailure]
  · intro u w v c q x b hpl hat
    exact processClientSetup_family hpl hat
  · intro u w v c q x b hpl hat
    exact processClientSession_plain_finished hpl hat
  · intro u w v c q x b hpl hat
    exact processClientCleanup_family hpl hat

end Steeple
